import Mathlib

/-!
Verification development for the yardd storage engine (crate yardd_disk).

The definitions below are a shallow embedding of the Rust sources:
serialization_helpers.rs (big-endian byte codec), page.rs (page frame and
header layout), disk_btree.rs (slotted index page), disk_manager.rs
(page-id to file/offset mapping) and page_manager.rs (buffer pool).

Machine integers are modelled as Nat with explicit reductions modulo
2 ^ 16 and 2 ^ 64 at the points where the Rust code casts or where a
fixed-width store truncates.  Byte buffers are modelled as total
functions from Nat to Nat; every write stores values below 256, matching
Vec of u8.  Fallible paths (Rust panics and Result errors) are modelled
with Option and Except.
-/

namespace Yardd

/-- Byte buffers: index to byte value.  All writes store values below 256. -/
def Bytes : Type := Nat → Nat

/-- Big-endian byte list of a natural number, width w.  Mirrors the Rust
to_be_bytes conversions used by serialization_helpers.rs; a value wider
than w bytes is truncated modulo 256 ^ w exactly as a uN cast would. -/
def natToBytesBE : Nat → Nat → List Nat
  | 0, _ => []
  | w + 1, n => natToBytesBE w (n / 256) ++ [n % 256]

/-- Big-endian value of a byte list, mirroring from_be_bytes. -/
def bytesToNatBE (l : List Nat) : Nat :=
  l.foldl (fun acc b => 256 * acc + b) 0

/-- Read w consecutive bytes starting at index s. -/
def readBytes (v : Bytes) (s : Nat) : Nat → List Nat
  | 0 => []
  | w + 1 => v s :: readBytes v (s + 1) w

/-- Write the byte list l at consecutive indices starting at s.  This is
the model of write_bytes in serialization_helpers.rs (write_all of a
slice at an offset). -/
def write_byte_list (v : Bytes) (s : Nat) : List Nat → Bytes
  | [] => v
  | b :: rest => write_byte_list (fun i => if i = s then b else v i) (s + 1) rest

/-- read_u16 from serialization_helpers.rs. -/
def read_u16 (v : Bytes) (s : Nat) : Nat := bytesToNatBE (readBytes v s 2)

/-- read_u32 from serialization_helpers.rs. -/
def read_u32 (v : Bytes) (s : Nat) : Nat := bytesToNatBE (readBytes v s 4)

/-- read_u64 from serialization_helpers.rs. -/
def read_u64 (v : Bytes) (s : Nat) : Nat := bytesToNatBE (readBytes v s 8)

/-- write_u16 from serialization_helpers.rs; the argument is reduced
modulo 2 ^ 16 exactly as the u16 parameter type does at call sites. -/
def write_u16 (v : Bytes) (s : Nat) (n : Nat) : Bytes :=
  write_byte_list v s (natToBytesBE 2 n)

/-- write_u32 from serialization_helpers.rs. -/
def write_u32 (v : Bytes) (s : Nat) (n : Nat) : Bytes :=
  write_byte_list v s (natToBytesBE 4 n)

/-- write_u64 from serialization_helpers.rs. -/
def write_u64 (v : Bytes) (s : Nat) (n : Nat) : Bytes :=
  write_byte_list v s (natToBytesBE 8 n)

/-! Page layout constants from page.rs. -/

def PAGE_SIZE_BYTES : Nat := 1024
def PAGE_MAGIC_NUMBER : Nat := 0xFBEA82B9
def MAGIC_NUMBER_START : Nat := 0
def PAGE_TYPE_START : Nat := 4
def LOG_SEQUENCE_NUMBER_START : Nat := 5
def PARENT_PAGE_ID_START : Nat := 9
def PAGE_ID_START : Nat := 17
def HEADER_SIZE : Nat := 25
def SLOTS_HEADER_START : Nat := 25
def SLOTS_OCCUPIED_SLOTS_START : Nat := 25
def SLOTS_FRAGMENTED_SLOTS_START : Nat := 27
def SLOTS_NEXT_EMPTY_OFFSET_START : Nat := 29
def SLOTS_HEADER_SIZE : Nat := 6
def SLOTS_START : Nat := 31

/-- Page type tags as stored in the byte at offset 4: 1 = IndexNode,
2 = IndexLeaf, 3 = DataPage (enum PageType in page.rs). -/
def indexNodeTag : Nat := 1
def indexLeafTag : Nat := 2
def dataPageTag : Nat := 3

/-- Page frame from page.rs: byte buffer, dirty flag and page id.  Every
page constructed by the repository has a buffer of PAGE_SIZE_BYTES
bytes, so the buffer is a total function and the size is the constant. -/
structure Page where
  data : Bytes
  is_dirty : Bool
  page_id : Nat

/-- page_size on Page, which is data.len() in the source; every buffer
in the repository is allocated with PAGE_SIZE_BYTES bytes. -/
def Page.page_size (_ : Page) : Nat := PAGE_SIZE_BYTES

/-- Zero-filled page as materialized by the buffer pool before
initialization (vec of zeros in add_free_page). -/
def zeroPage (pid : Nat) : Page :=
  { data := fun _ => 0, is_dirty := false, page_id := pid }

/-- PageHeader from page.rs; page_type holds the numeric tag. -/
structure PageHeader where
  magic_number : Nat
  page_type : Nat
  log_sequence_number : Nat
  parent_page_id : Nat
  page_id : Nat

/-- SlotHeader from page.rs. -/
structure SlotHeader where
  occupied_slots : Nat
  fragmented_slots : Nat
  next_empty_offset : Nat

/-- Page.write_header: sets the dirty flag, mirrors the page id into the
frame and stores the five header fields big-endian at their offsets.
The page-type byte is stored directly (self.data at index 4). -/
def Page.write_header (p : Page) (h : PageHeader) : Page :=
  let d1 := write_u32 p.data MAGIC_NUMBER_START h.magic_number
  let d2 := write_byte_list d1 PAGE_TYPE_START [h.page_type % 256]
  let d3 := write_u32 d2 LOG_SEQUENCE_NUMBER_START h.log_sequence_number
  let d4 := write_u64 d3 PARENT_PAGE_ID_START h.parent_page_id
  let d5 := write_u64 d4 PAGE_ID_START h.page_id
  { data := d5, is_dirty := true, page_id := h.page_id }

/-- Page.read_page_type gives the raw tag byte.  The source converts it
to the PageType enum and panics on a tag outside 1..3; all pages in the
claims carry a valid tag, so the raw byte is used directly here. -/
def Page.read_page_type (p : Page) : Nat := p.data PAGE_TYPE_START

/-- Page.read_page_id from page.rs. -/
def Page.read_page_id (p : Page) : Nat := read_u64 p.data PAGE_ID_START

/-- Page.read_header from page.rs. -/
def Page.read_header (p : Page) : PageHeader :=
  { magic_number := read_u32 p.data MAGIC_NUMBER_START,
    page_type := p.read_page_type,
    log_sequence_number := read_u32 p.data LOG_SEQUENCE_NUMBER_START,
    parent_page_id := read_u64 p.data PARENT_PAGE_ID_START,
    page_id := p.read_page_id }

/-! Slotted index page, disk_btree.rs, specialized to the u64 key column
(the only DbColumn instance in the repository, page.rs).  For the u64
codec: from_bytes is read_u64, to_bytes is the 8-byte big-endian list
and len is 8. -/

/-- TUPLE_HEADER_SIZE from disk_btree.rs: child page id (8 bytes) plus
slot index (2 bytes). -/
def TUPLE_HEADER_SIZE : Nat := 10

/-- INDEX_PAGE_HEADER_SIZE from disk_btree.rs. -/
def INDEX_PAGE_HEADER_SIZE : Nat := HEADER_SIZE + SLOTS_HEADER_SIZE

/-- u64 key length: size_of u64, the len of the DbColumn impl for u64. -/
def u64KeyLen : Nat := 8

/-- KeyEntry from disk_btree.rs with KeyType = u64.  slot_index is an
Option: present only for leaf entries. -/
structure KeyEntry where
  key : Nat
  page_id : Nat
  slot_index : Option Nat
deriving DecidableEq, Repr, Inhabited

/-- read_n_slots: occupied slot count from the slot header. -/
def read_n_slots (p : Page) : Nat := read_u16 p.data SLOTS_OCCUPIED_SLOTS_START

/-- read_fragmented_slots from the slot header. -/
def read_fragmented_slots (p : Page) : Nat :=
  read_u16 p.data SLOTS_FRAGMENTED_SLOTS_START

/-- read_next_empty_offset from the slot header. -/
def read_next_empty_offset (p : Page) : Nat :=
  read_u16 p.data SLOTS_NEXT_EMPTY_OFFSET_START

/-- read_slots_header from disk_btree.rs. -/
def read_slots_header (p : Page) : SlotHeader :=
  { occupied_slots := read_n_slots p,
    fragmented_slots := read_fragmented_slots p,
    next_empty_offset := read_next_empty_offset p }

/-- slots_end from disk_btree.rs: end of the slot directory, counting
occupied plus fragmented 2-byte entries. -/
def slots_end (p : Page) : Nat :=
  SLOTS_START + (read_n_slots p + read_fragmented_slots p) * 2

/-- get_entry_offset: the 2-byte directory entry at position slot_index. -/
def get_entry_offset (p : Page) (slot_index : Nat) : Nat :=
  read_u16 p.data (SLOTS_START + 2 * slot_index)

/-- get_fragmented_slot_offset from disk_btree.rs. -/
def get_fragmented_slot_offset (p : Page) (slot_index : Nat) : Nat :=
  read_u16 p.data (SLOTS_START + 2 * read_n_slots p + 2 * slot_index)

/-- get_occupied_slots: the live record offsets in directory order. -/
def get_occupied_slots (p : Page) : List Nat :=
  (List.range (read_n_slots p)).map (get_entry_offset p)

/-- get_fragmented_slots from disk_btree.rs. -/
def get_fragmented_slots (p : Page) : List Nat :=
  (List.range (read_fragmented_slots p)).map (get_fragmented_slot_offset p)

/-- Decode the record stored at byte offset: child page id, then the
2-byte in-leaf slot index (interpreted only when the page type is
IndexLeaf), then the u64 key.  This is the body of read_key_node in
disk_btree.rs after the directory lookup. -/
def decodeAt (p : Page) (offset : Nat) : KeyEntry :=
  { page_id := read_u64 p.data offset,
    slot_index :=
      if p.read_page_type = indexLeafTag then
        some (read_u16 p.data (offset + 8))
      else
        none,
    key := read_u64 p.data (offset + TUPLE_HEADER_SIZE) }

/-- read_key_node from disk_btree.rs. -/
def read_key_node (p : Page) (slot_index : Nat) : KeyEntry :=
  decodeAt p (get_entry_offset p slot_index)

/-- The key entries yielded by the page iterator (PageIterator in
disk_btree.rs) in slot-directory order. -/
def iterList (p : Page) : List KeyEntry :=
  (List.range (read_n_slots p)).map (read_key_node p)

/-- write_slots_header from disk_btree.rs: three u16 stores.  It does
not touch the dirty flag. -/
def write_slots_header (p : Page) (h : SlotHeader) : Page :=
  let d1 := write_u16 p.data SLOTS_OCCUPIED_SLOTS_START h.occupied_slots
  let d2 := write_u16 d1 SLOTS_FRAGMENTED_SLOTS_START h.fragmented_slots
  let d3 := write_u16 d2 SLOTS_NEXT_EMPTY_OFFSET_START h.next_empty_offset
  { p with data := d3 }

/-- Loop writing each offset of the list as a u16 at consecutive 2-byte
positions starting at base; models the two for loops of update_slots. -/
def write_offsets (v : Bytes) (base : Nat) : List Nat → Bytes
  | [] => v
  | o :: rest => write_offsets (write_u16 v base o) (base + 2) rest

/-- update_slots from disk_btree.rs: sets the dirty flag, rewrites the
slot header from the list lengths (cast to u16) and the given next
empty offset, then rewrites the live directory entries followed by the
fragmented entries placed after occupied_slots (the truncated count). -/
def update_slots (p : Page) (slots : List Nat) (slots_fragmented : List Nat)
    (next_empty_offset : Nat) : Page :=
  let p1 := write_slots_header { p with is_dirty := true }
    { occupied_slots := slots.length % 65536,
      fragmented_slots := slots_fragmented.length % 65536,
      next_empty_offset := next_empty_offset % 65536 }
  let d1 := write_offsets p1.data SLOTS_START slots
  let d2 := write_offsets d1 (SLOTS_START + 2 * (slots.length % 65536))
    slots_fragmented
  { p1 with data := d2 }

/-- insert_slot from disk_btree.rs: copy the occupied and fragmented
offset lists, insert the new offset at insert_index, and rewrite the
directory with next empty offset one below the new record. -/
def insert_slot (p : Page) (insert_index : Nat) (offset_start : Nat) : Page :=
  update_slots p ((get_occupied_slots p).insertIdx insert_index offset_start)
    (get_fragmented_slots p) (offset_start - 1)

/-- write_entry from disk_btree.rs: child page id, slot index (or 0 when
absent), then the key bytes, consecutively from offset. -/
def write_entry (p : Page) (new_entry : KeyEntry) (offset : Nat) : Page :=
  let d1 := write_u64 p.data offset new_entry.page_id
  let d2 := write_u16 d1 (offset + 8) (new_entry.slot_index.getD 0)
  let d3 := write_byte_list d2 (offset + TUPLE_HEADER_SIZE)
    (natToBytesBE 8 new_entry.key)
  { p with data := d3 }

/-- The insertion scan of append_key: starting from occupied (the list
length), take the first index whose entry key is at least the new key.
This is the for loop with break in disk_btree.rs. -/
def find_insert_index (k : Nat) : List KeyEntry → Nat
  | [] => 0
  | entry :: rest => if k ≤ entry.key then 0 else find_insert_index k rest + 1

/-- append_key from disk_btree.rs for u64 keys.  Returns none on the
page-full panic.  The subtraction producing offset_start is a usize
subtraction in the source; within the claims next_empty_offset is at
least the entry size, where Nat subtraction agrees with it. -/
def append_key (p : Page) (new_entry : KeyEntry) : Option Page :=
  let p := { p with is_dirty := true }
  let entry_size_bytes := u64KeyLen + TUPLE_HEADER_SIZE
  let offset_start := read_next_empty_offset p - entry_size_bytes
  if offset_start < slots_end p then
    none
  else
    let insert_index := find_insert_index new_entry.key (iterList p)
    some (write_entry (insert_slot p insert_index offset_start) new_entry
      offset_start)

/-- init_page from disk_btree.rs: write the page header with the magic
number, given type and parent, LSN zero and the frame page id, then the
slot header with zero counts and next empty offset page_size minus 1. -/
def init_page (page_type : Nat) (parent_page_id : Nat) (p : Page) : Page :=
  let page := p.write_header
    { magic_number := PAGE_MAGIC_NUMBER,
      page_type := page_type,
      log_sequence_number := 0,
      parent_page_id := parent_page_id,
      page_id := p.page_id }
  write_slots_header page
    { occupied_slots := 0, fragmented_slots := 0,
      next_empty_offset := page.page_size - 1 }

/-! Disk manager, disk_manager.rs.  The filesystem is an external
collaborator; it is modelled as an association of paths to byte lists.
Rust panics (expect and unwrap) are modelled as errors of the matching
kind, since the spec error taxonomy is by kind, not identifier. -/

/-- Filesystem model: path to file contents. -/
def FileSystem : Type := List (String × List Nat)

/-- Look a path up in the filesystem. -/
def fsLookup : FileSystem → String → Option (List Nat)
  | [], _ => none
  | (p, c) :: rest, path => if p = path then some c else fsLookup rest path

/-- Replace or create a file. -/
def fsWrite (fs : FileSystem) (path : String) (contents : List Nat) : FileSystem :=
  (path, contents) :: fs.filter (fun pc => pc.1 ≠ path)

/-- Overwrite file bytes starting at a byte offset, extending with zero
bytes when the offset is past the end: the effect of seek followed by
write_all. -/
def writeAtFile (file : List Nat) (offset : Nat) (data : List Nat) : List Nat :=
  file.take offset ++ List.replicate (offset - file.length) 0 ++ data ++
    file.drop (offset + data.length)

/-- DiskEntry from disk_manager.rs. -/
structure DiskEntry where
  file_path : String
  offset : Nat
  page_id : Nat
deriving DecidableEq, Repr

/-- Association-list lookup keyed by page id, the model of the HashMap
and BTreeMap lookups in the source. -/
def alookup {α : Type} : List (Nat × α) → Nat → Option α
  | [], _ => none
  | (k, v) :: rest, id => if k = id then some v else alookup rest id

/-- Association-list erase of a key (all occurrences). -/
def aerase {α : Type} : List (Nat × α) → Nat → List (Nat × α)
  | [], _ => []
  | kv :: rest, id =>
    if kv.1 = id then aerase rest id else kv :: aerase rest id

/-- Association-list insert, replacing any previous binding, the model
of HashMap and BTreeMap insert. -/
def ainsert {α : Type} (l : List (Nat × α)) (id : Nat) (v : α) : List (Nat × α) :=
  (id, v) :: aerase l id

/-- DiskManager from disk_manager.rs. -/
structure DiskManager where
  page_map : List (Nat × DiskEntry)
  base_directory : String
  next_page_id : Nat

/-- DiskManager::new. -/
def DiskManager.new (base_directory : String) : DiskManager :=
  { page_map := [], base_directory := base_directory, next_page_id := 0 }

/-- Error kinds surfaced by the disk manager model.  unknownPageId
covers the expect panics on a missing page-map entry; ioError covers
filesystem failures. -/
inductive DiskError where
  | unknownPageId
  | ioError
deriving DecidableEq, Repr

/-- allocate_pages from disk_manager.rs.  File::create truncates the
file; the source then seeks to pages times PAGE_SIZE_BYTES and writes a
single zero byte there, so the resulting file has pages times
PAGE_SIZE_BYTES plus one bytes.  Each page-map entry offset is computed
by the source as a u16 product, i as u16 times PAGE_SIZE_BYTES as u16,
which wraps modulo 2 ^ 16 (and overflow-panics in a debug build); the
wrap is modelled explicitly. -/
def DiskManager.allocate_pages (dm : DiskManager) (fs : FileSystem)
    (pages : Nat) (file_name : String) :
    DiskManager × FileSystem × List Nat :=
  let path := dm.base_directory ++ "/" ++ file_name
  let fileBytes := List.replicate (pages * PAGE_SIZE_BYTES) 0 ++ [0]
  let fs1 := fsWrite fs path fileBytes
  let entries := (List.range pages).map (fun i =>
    (dm.next_page_id + i,
      DiskEntry.mk path ((i % 65536) * PAGE_SIZE_BYTES % 65536)
        (dm.next_page_id + i)))
  let ids := (List.range pages).map (fun i => dm.next_page_id + i)
  ({ dm with page_map := entries ++ dm.page_map,
             next_page_id := dm.next_page_id + pages }, fs1, ids)

/-- load_page from disk_manager.rs.  The source allocates a zero-filled
buffer of PAGE_SIZE_BYTES bytes and calls read_exact on it but DISCARDS
the Result (no question mark, no unwrap): a short or failing read is
silently ignored and the zero buffer is returned with Ok.  The model
mirrors that: when the mapped region does not fit in the file, the
untouched zero buffer is returned as a success. -/
def DiskManager.load_page (dm : DiskManager) (fs : FileSystem) (page_id : Nat) :
    Except DiskError (List Nat) :=
  match alookup dm.page_map page_id with
  | none => .error .unknownPageId
  | some entry =>
    match fsLookup fs entry.file_path with
    | none => .error .ioError
    | some file =>
      if entry.offset + PAGE_SIZE_BYTES ≤ file.length then
        .ok ((file.drop entry.offset).take PAGE_SIZE_BYTES)
      else
        .ok (List.replicate PAGE_SIZE_BYTES 0)

/-- save_page from disk_manager.rs: look up the entry, open the file for
writing (failure when it does not exist), seek and write_all. -/
def DiskManager.save_page (dm : DiskManager) (fs : FileSystem) (page_id : Nat)
    (data : List Nat) : Except DiskError FileSystem :=
  match alookup dm.page_map page_id with
  | none => .error .unknownPageId
  | some entry =>
    match fsLookup fs entry.file_path with
    | none => .error .ioError
    | some file =>
      .ok (fsWrite fs entry.file_path (writeAtFile file entry.offset data))

/-! Page manager (buffer pool), page_manager.rs, and the usage tracker,
usage_tracker.rs.  The tracker stores page ids prioritized by inverted
SystemTime.  Two aspects are outside the repository sources and are
modelled from the spec:  the wall-clock timestamps are modelled as
logical recency (each insert or touch makes the id the most recent), and
the iteration order of the external priority_queue crate used by the
eviction scan is modelled from spec section 4.4 as oldest first.  The
tracker is therefore a list of page ids, oldest first. -/

/-- Frame behind an Arc and RwLock in the source: page bytes, dirty
flag, and the number of live references held outside the cache.  The
Arc strong count equals refs plus one (the cache reference). -/
structure Frame where
  data : List Nat
  is_dirty : Bool
  refs : Nat
deriving DecidableEq, Repr

/-- Remove every occurrence of an id from a tracker list. -/
def lremove : List Nat → Nat → List Nat
  | [], _ => []
  | x :: rest, id => if x = id then lremove rest id else x :: lremove rest id

/-- Modelled from the spec: UsageTracker::insert records the id with
timestamp now; if already present it behaves as touch.  Oldest first. -/
def trackerInsert (t : List Nat) (id : Nat) : List Nat :=
  lremove t id ++ [id]

/-- Modelled from the spec: UsageTracker::touch refreshes the timestamp
of a present id and is a no-op on an absent one. -/
def trackerTouch (t : List Nat) (id : Nat) : List Nat :=
  if id ∈ t then lremove t id ++ [id] else t

/-- Removal from the priority queue. -/
def trackerRemove (t : List Nat) (id : Nat) : List Nat :=
  lremove t id

/-- PageManager from page_manager.rs, together with the filesystem the
disk manager acts on. -/
structure PageManager where
  disk_manager : DiskManager
  tracker : List Nat
  pages : List (Nat × Frame)
  empty_pages : List Nat
  max_num_pages : Nat
  fs : FileSystem

/-- PageManager::new over a given filesystem. -/
def PageManager.new (max_num_pages : Nat) (base_directory : String)
    (fs : FileSystem) : PageManager :=
  { disk_manager := DiskManager.new base_directory,
    tracker := [], pages := [], empty_pages := [],
    max_num_pages := max_num_pages, fs := fs }

/-- add_free_page from page_manager.rs: cache a zeroed frame, insert the
id into the usage tracker, and push it onto empty_pages. -/
def add_free_page (s : PageManager) (page_id : Nat) : PageManager :=
  { s with
    pages := ainsert s.pages page_id
      (Frame.mk (List.replicate PAGE_SIZE_BYTES 0) false 0),
    tracker := trackerInsert s.tracker page_id,
    empty_pages := s.empty_pages ++ [page_id] }

/-- One step of the add_empty_pages loop over the enumerated fresh ids:
the first len ids are cached through add_free_page, the rest only join
empty_pages. -/
def addStep (len : Nat) (acc : PageManager) (iv : Nat × Nat) : PageManager :=
  if iv.1 < len then add_free_page acc iv.2
  else { acc with empty_pages := acc.empty_pages ++ [iv.2] }

/-- add_empty_pages from page_manager.rs: allocate n pages on disk, fill
the cache with the first min(free slots, n) of them, and record every id
in empty_pages. -/
def add_empty_pages (s : PageManager) (file : String) (n_pages : Nat) :
    PageManager :=
  let a := s.disk_manager.allocate_pages s.fs n_pages file
  let s1 := { s with disk_manager := a.1, fs := a.2.1 }
  let buffer_spots := s1.max_num_pages - s1.pages.length
  let len := min buffer_spots n_pages
  (a.2.2.enum).foldl (addStep len) s1

/-- Eviction scan of evict_next_page: walk the usage tracker (oldest
first, see the tracker model note), fetch each frame, and select the
first whose Arc strong count is one, that is whose external refs are
zero.  A missing frame would be an unwrap panic in the source and aborts
the scan with none. -/
def scanVictim (pages : List (Nat × Frame)) : List Nat → Option Nat
  | [] => none
  | id :: rest =>
    match alookup pages id with
    | some f => if f.refs = 0 then some id else scanVictim pages rest
    | none => none

/-- evict_next_page from page_manager.rs: select the first unpinned
frame in tracker order, remove it from the cache and the tracker, and
save its bytes through the disk manager with no check of the dirty
flag.  Returns the evicted id alongside the new state for specification
purposes (the source returns Option of unit); none models the no-victim
case as well as the unwrap panic on a failing save. -/
def evict_next_page (s : PageManager) : Option (PageManager × Nat) :=
  match scanVictim s.pages s.tracker with
  | none => none
  | some v =>
    match alookup s.pages v with
    | none => none
    | some f =>
      match s.disk_manager.save_page s.fs v f.data with
      | .error _ => none
      | .ok fs2 =>
        let s2 := { s with pages := aerase s.pages v,
                           tracker := trackerRemove s.tracker v, fs := fs2 }
        some (s2, v)

/-- load_page from page_manager.rs: evict when the cache is full (an
eviction failure is an expect panic, modelled none), read the bytes from
the disk manager (unwrap on failure), then cache the frame with a clean
dirty flag and register it in the tracker.  The returned frame carries
one external reference, the handle given to the caller. -/
def PageManager.load_page (s : PageManager) (page_id : Nat) :
    Option (PageManager × Frame) :=
  let step1 : Option PageManager :=
    if s.pages.length = s.max_num_pages then
      (evict_next_page s).map Prod.fst
    else
      some s
  match step1 with
  | none => none
  | some s1 =>
    match s1.disk_manager.load_page s1.fs page_id with
    | .error _ => none
    | .ok data =>
      let f := Frame.mk data false 1
      let s2 := { s1 with pages := ainsert s1.pages page_id f,
                          tracker := trackerInsert s1.tracker page_id }
      some (s2, f)

/-- find_page from page_manager.rs: on a cache hit touch the tracker and
hand out a fresh handle (one more external reference); on a miss defer
to load_page. -/
def find_page (s : PageManager) (page_id : Nat) : Option (PageManager × Frame) :=
  match alookup s.pages page_id with
  | some f =>
    let f2 := { f with refs := f.refs + 1 }
    let s2 := { s with pages := ainsert s.pages page_id f2,
                       tracker := trackerTouch s.tracker page_id }
    some (s2, f2)
  | none => s.load_page page_id

/-- next_free_page from page_manager.rs: pop the last id of empty_pages
(panic when exhausted, modelled none) and resolve it through find_page. -/
def next_free_page (s : PageManager) : Option (PageManager × Frame) :=
  match s.empty_pages.getLast? with
  | none => none
  | some page_id =>
    find_page { s with empty_pages := s.empty_pages.dropLast } page_id

/-- A client dropping one handle to a cached page: the Arc reference
drop on the client side of the pin discipline.  Not a source function;
it closes the operation alphabet so that reference counts can fall. -/
def dropHandle (s : PageManager) (id : Nat) : PageManager :=
  match alookup s.pages id with
  | some f =>
    if f.refs = 0 then s
    else { s with pages := ainsert s.pages id { f with refs := f.refs - 1 } }
  | none => s

/-- Public operations of the buffer pool, plus the client-side handle
drop. -/
inductive PoolOp where
  | addEmpty (file : String) (n : Nat)
  | nextFree
  | find (id : Nat)
  | drophdl (id : Nat)

/-- One pool operation; none propagates the panics of the source. -/
def execOp (s : PageManager) : PoolOp → Option PageManager
  | .addEmpty file n => some (add_empty_pages s file n)
  | .nextFree => (next_free_page s).map Prod.fst
  | .find id => (find_page s id).map Prod.fst
  | .drophdl id => some (dropHandle s id)

/-- Run a sequence of pool operations. -/
def runOps (s : PageManager) : List PoolOp → Option PageManager
  | [] => some s
  | op :: rest =>
    match execOp s op with
    | none => none
    | some s1 => runOps s1 rest

/-! Concrete buffer-pool and disk-manager instances for the claim
evaluations and witnesses. -/

/-- A pool with a pinned old page 5 and an unpinned clean page 7. -/
def pmC4 : PageManager :=
  { disk_manager :=
      { page_map := [(5, DiskEntry.mk "d/f" 0 5), (7, DiskEntry.mk "d/f" 4 7)],
        base_directory := "d", next_page_id := 8 },
    tracker := [5, 7],
    pages := [(5, Frame.mk [1, 2] false 1), (7, Frame.mk [3, 4] false 0)],
    empty_pages := [],
    max_num_pages := 2,
    fs := [("d/f", [0, 0, 0, 0, 0, 0])] }

/-- The pool after the eviction cycle on pmC4. -/
def pmC4after : PageManager :=
  match evict_next_page pmC4 with
  | some sv => sv.1
  | none => pmC4

/-- A short operation sequence for the buffer-pool invariant witness:
allocate two pages into a pool of capacity two, take a free page, and
drop its handle. -/
def opsC5 : List PoolOp :=
  [PoolOp.addEmpty "f" 2, PoolOp.nextFree, PoolOp.drophdl 1]

/-- The pool state after running opsC5 from a fresh pool. -/
def pmC5 : PageManager :=
  (runOps (PageManager.new 2 "d" []) opsC5).getD (PageManager.new 0 "d" [])

/-- The disk manager and filesystem after allocating 65 pages in one
file: page index 64 overflows the u16 offset arithmetic. -/
def dmAlloc65 : DiskManager × FileSystem × List Nat :=
  (DiskManager.new "d").allocate_pages [] 65 "f"

/-- Allocation of one page in file f. -/
def dmC7A : DiskManager × FileSystem × List Nat :=
  (DiskManager.new "d").allocate_pages [] 1 "f"

/-- A second allocation of zero pages in the same file truncates it to a
single byte while page 0 stays mapped to bytes 0..1023 of it. -/
def dmC7B : DiskManager × FileSystem × List Nat :=
  dmC7A.1.allocate_pages dmC7A.2.1 0 "f"

/-- Index pages reachable in the source lifecycle: init_page on a
zero-filled frame (the buffer pool materializes pages as zeroed bytes)
followed by any sequence of successful append_key calls.  The entry
bounds are the ranges of the Rust types u64 and u16. -/
inductive Reached : Page → Prop where
  | base (page_type parent_page_id pid : Nat)
      (ht : page_type = indexNodeTag ∨ page_type = indexLeafTag) :
      Reached (init_page page_type parent_page_id (zeroPage pid))
  | step (p q : Page) (e : KeyEntry) (hp : Reached p)
      (hkey : e.key < 2 ^ 64) (hpid : e.page_id < 2 ^ 64)
      (hsi : e.slot_index.getD 0 < 65536)
      (happ : append_key p e = some q) : Reached q

/-- Invariant of reachable index pages: bytes are u8 values, the type
tag is an index tag, no fragmented slots, the next empty offset drops
19 bytes per occupied slot from 1023, every live record lies above the
next empty offset and inside the page, and iterated keys are
non-decreasing. -/
def PageInv (p : Page) : Prop :=
  (∀ i, p.data i < 256) ∧
  (p.read_page_type = indexNodeTag ∨ p.read_page_type = indexLeafTag) ∧
  read_fragmented_slots p = 0 ∧
  read_next_empty_offset p = 1023 - 19 * read_n_slots p ∧
  read_n_slots p ≤ 47 ∧
  (∀ o ∈ get_occupied_slots p, read_next_empty_offset p < o ∧ o + 18 ≤ 1024) ∧
  (iterList p).Pairwise (fun a b => a.key ≤ b.key)

/-! Concrete instances used by the claim witnesses and counterexamples. -/

/-- A freshly initialized interior index page, as in the repository
tests. -/
def pageExample0 : Page := init_page indexNodeTag 123 (zeroPage 0)

/-- pageExample0 after appending the entry with key 1 and child 14. -/
def pageDup1 : Page :=
  (append_key pageExample0 (KeyEntry.mk 1 14 none)).getD (zeroPage 0)

/-- pageDup1 after appending the same entry a second time. -/
def pageDup2 : Page :=
  (append_key pageDup1 (KeyEntry.mk 1 14 none)).getD (zeroPage 0)

/-- pageDup1 after appending an equal-keyed entry with child 99. -/
def pageEq2 : Page :=
  (append_key pageDup1 (KeyEntry.mk 1 99 none)).getD (zeroPage 0)

/-- An interior page append carrying a leaf slot index, as in the add_key
test of the repository. -/
def pageC9 : Page :=
  (append_key pageExample0 (KeyEntry.mk 23 345 (some 289))).getD (zeroPage 0)

/-- A well-formed empty page whose slot header was rewritten through the
public write_slots_header so that next_empty_offset - 18 lands exactly
on the directory end. -/
def pageC3 : Page :=
  write_slots_header (init_page indexNodeTag 0 (zeroPage 0))
    (SlotHeader.mk 0 0 49)

/-- pageExample0 after appending key 3 with child 14 (reverse-order
insertion test of the repository). -/
def pageRev1 : Page :=
  (append_key pageExample0 (KeyEntry.mk 3 14 none)).getD (zeroPage 0)

/-- pageRev1 after appending the smaller key 1 with child 16. -/
def pageRev2 : Page :=
  (append_key pageRev1 (KeyEntry.mk 1 16 none)).getD (zeroPage 0)

/-- The entry as read back after append_key wrote it: key and child page
id truncated to u64 (an identity for genuine u64 inputs) and the slot
index interpreted only on IndexLeaf pages (read as 0 when the entry
carried none). -/
def decodedEntry (p : Page) (e : KeyEntry) : KeyEntry :=
  { key := e.key % 2 ^ 64,
    page_id := e.page_id % 2 ^ 64,
    slot_index :=
      if p.read_page_type = indexLeafTag then
        some (e.slot_index.getD 0 % 65536)
      else
        none }

/-! Lemma layer: byte codec. -/

theorem wbl_apply (l : List Nat) (v : Bytes) (s i : Nat) :
    write_byte_list v s l i =
      if s ≤ i ∧ i < s + l.length then l.getD (i - s) 0 else v i := by
  induction l generalizing v s with
  | nil =>
    simp only [write_byte_list, List.length_nil]
    split
    · omega
    · rfl
  | cons b rest ih =>
    simp only [write_byte_list, List.length_cons]
    rw [ih]
    by_cases hi : i = s
    · subst hi
      have h1 : ¬(i + 1 ≤ i ∧ i < i + 1 + rest.length) := by omega
      have h2 : i ≤ i ∧ i < i + (rest.length + 1) := by omega
      rw [if_neg h1, if_pos h2]
      simp
    · by_cases hr : s + 1 ≤ i ∧ i < s + 1 + rest.length
      · have h2 : s ≤ i ∧ i < s + (rest.length + 1) := by omega
        rw [if_pos hr, if_pos h2]
        have hd : i - s = (i - (s + 1)) + 1 := by omega
        rw [hd, List.getD_cons_succ]
      · have h2 : ¬(s ≤ i ∧ i < s + (rest.length + 1)) := by omega
        rw [if_neg hr, if_neg h2]
        simp [hi]

theorem natToBytesBE_length (w n : Nat) : (natToBytesBE w n).length = w := by
  induction w generalizing n with
  | zero => rfl
  | succ w ih => simp [natToBytesBE, ih]

theorem natToBytesBE_lt256 (w n : Nat) : ∀ b ∈ natToBytesBE w n, b < 256 := by
  induction w generalizing n with
  | zero => simp [natToBytesBE]
  | succ w ih =>
    intro b hb
    simp only [natToBytesBE, List.mem_append, List.mem_singleton] at hb
    rcases hb with hb | hb
    · exact ih _ b hb
    · subst hb; exact Nat.mod_lt _ (by omega)

theorem bytesToNatBE_concat (l : List Nat) (b : Nat) :
    bytesToNatBE (l ++ [b]) = 256 * bytesToNatBE l + b := by
  simp [bytesToNatBE, List.foldl_append]

theorem bytesToNatBE_natToBytesBE (w n : Nat) :
    bytesToNatBE (natToBytesBE w n) = n % 256 ^ w := by
  induction w generalizing n with
  | zero => simp [natToBytesBE, bytesToNatBE, Nat.mod_one]
  | succ w ih =>
    rw [natToBytesBE, bytesToNatBE_concat, ih]
    rw [pow_succ, mul_comm (256 ^ w) 256, Nat.mod_mul]
    ring

theorem natToBytesBE_mod (w n : Nat) :
    natToBytesBE w (n % 256 ^ w) = natToBytesBE w n := by
  induction w generalizing n with
  | zero => rfl
  | succ w ih =>
    rw [natToBytesBE, natToBytesBE]
    have h1 : n % 256 ^ (w + 1) / 256 = n / 256 % 256 ^ w := by
      rw [pow_succ, mul_comm (256 ^ w) 256]
      exact Nat.mod_mul_right_div_self n 256 (256 ^ w)
    have h2 : n % 256 ^ (w + 1) % 256 = n % 256 := by
      refine Nat.mod_mod_of_dvd n ?_
      exact Dvd.intro (256 ^ w) (by rw [pow_succ, mul_comm])
    rw [h1, h2, ih]

theorem nat2_mod (n : Nat) :
    natToBytesBE 2 (n % 65536) = natToBytesBE 2 n := by
  have h := natToBytesBE_mod 2 n
  norm_num at h
  exact h


theorem readBytes_congr (v1 v2 : Bytes) (s w : Nat)
    (h : ∀ j, j < w → v1 (s + j) = v2 (s + j)) :
    readBytes v1 s w = readBytes v2 s w := by
  induction w generalizing s with
  | zero => rfl
  | succ w ih =>
    rw [readBytes, readBytes]
    have h0 : v1 s = v2 s := by
      have := h 0 (by omega); simpa using this
    rw [h0, ih (s + 1) (fun j hj => by
      have := h (j + 1) (by omega)
      simpa [Nat.add_assoc, Nat.add_comm 1 j] using this)]

theorem readBytes_of_getD (v : Bytes) (s : Nat) (l : List Nat)
    (h : ∀ j, j < l.length → v (s + j) = l.getD j 0) :
    readBytes v s l.length = l := by
  induction l generalizing s with
  | nil => rfl
  | cons b rest ih =>
    rw [List.length_cons, readBytes]
    have h0 : v s = b := by simpa using h 0 (by simp)
    rw [h0, ih (s + 1) (fun j hj => by
      have := h (j + 1) (by simpa using Nat.succ_lt_succ hj)
      simpa [Nat.add_assoc, Nat.add_comm 1 j] using this)]

theorem wbl_append (v : Bytes) (s : Nat) (l1 l2 : List Nat) :
    write_byte_list v s (l1 ++ l2) =
      write_byte_list (write_byte_list v s l1) (s + l1.length) l2 := by
  induction l1 generalizing v s with
  | nil => simp [write_byte_list]
  | cons b rest ih =>
    simp only [List.cons_append, write_byte_list, List.length_cons, List.append_eq]
    rw [ih]
    have h : s + 1 + rest.length = s + (rest.length + 1) := by omega
    rw [h]

theorem readBytes_wbl_within (v : Bytes) (s t w : Nat) (L : List Nat)
    (h1 : s ≤ t) (h2 : t + w ≤ s + L.length) :
    readBytes (write_byte_list v s L) t w = (L.drop (t - s)).take w := by
  have hlen : ((L.drop (t - s)).take w).length = w := by
    rw [List.length_take, List.length_drop]
    omega
  have hget : ∀ j, j < ((L.drop (t - s)).take w).length →
      write_byte_list v s L (t + j) = ((L.drop (t - s)).take w).getD j 0 := by
    intro j hj
    rw [hlen] at hj
    rw [wbl_apply, if_pos (And.intro (by omega) (by omega))]
    rw [List.getD_eq_getElem?_getD, List.getD_eq_getElem?_getD,
      List.getElem?_take, if_pos hj, List.getElem?_drop]
    have h : t + j - s = t - s + j := by omega
    rw [h]
  have key := readBytes_of_getD (write_byte_list v s L) t _ hget
  rw [hlen] at key
  exact key

theorem readBytes_wbl_self (v : Bytes) (s : Nat) (L : List Nat) :
    readBytes (write_byte_list v s L) s L.length = L := by
  have h := readBytes_wbl_within v s s L.length L (Nat.le_refl s) (by omega)
  simpa using h

theorem readBytes_wbl_disjoint (v : Bytes) (s t w : Nat) (L : List Nat)
    (h : t + w ≤ s ∨ s + L.length ≤ t) :
    readBytes (write_byte_list v s L) t w = readBytes v t w := by
  apply readBytes_congr
  intro j hj
  rw [wbl_apply]
  rw [if_neg (by omega)]

theorem wbl_lt256 (v : Bytes) (s : Nat) (L : List Nat)
    (hv : ∀ i, v i < 256) (hL : ∀ b ∈ L, b < 256) :
    ∀ i, write_byte_list v s L i < 256 := by
  intro i
  rw [wbl_apply]
  split
  · next h =>
    have hlt : i - s < L.length := by omega
    rw [List.getD_eq_getElem L 0 hlt]
    exact hL _ (List.getElem_mem hlt)
  · exact hv i

theorem read_u16_write_u16 (v : Bytes) (s n : Nat) :
    read_u16 (write_u16 v s n) s = n % 65536 := by
  have key := readBytes_wbl_self v s (natToBytesBE 2 n)
  rw [natToBytesBE_length] at key
  rw [read_u16, write_u16, key, bytesToNatBE_natToBytesBE]
  norm_num

theorem read_u64_write_u64 (v : Bytes) (s n : Nat) :
    read_u64 (write_u64 v s n) s = n % 2 ^ 64 := by
  have key := readBytes_wbl_self v s (natToBytesBE 8 n)
  rw [natToBytesBE_length] at key
  rw [read_u64, write_u64, key, bytesToNatBE_natToBytesBE]
  norm_num

theorem readBytes_two (v : Bytes) (s : Nat) :
    readBytes v s 2 = [v s, v (s + 1)] := rfl

theorem read_u16_eq (v : Bytes) (s : Nat) :
    read_u16 v s = 256 * v s + v (s + 1) := by
  simp [read_u16, readBytes_two, bytesToNatBE, List.foldl]

theorem read_u16_lt (v : Bytes) (s : Nat) (hv : ∀ i, v i < 256) :
    read_u16 v s < 65536 := by
  rw [read_u16_eq]
  have h1 := hv s
  have h2 := hv (s + 1)
  omega

/-! Lemma layer: list helpers. -/

theorem insertIdx_take_drop {α : Type} (n : Nat) (x : α) (l : List α)
    (h : n ≤ l.length) :
    l.insertIdx n x = l.take n ++ x :: l.drop n := by
  induction l generalizing n with
  | nil =>
    have hn : n = 0 := by simpa using h
    subst hn
    rfl
  | cons b rest ih =>
    cases n with
    | zero => simp [List.insertIdx_zero]
    | succ n =>
      rw [List.insertIdx_succ_cons, ih n (by simpa using h)]
      rfl

theorem map_insertIdx {α β : Type} (f : α → β) (n : Nat) (x : α) (l : List α) :
    (l.insertIdx n x).map f = (l.map f).insertIdx n (f x) := by
  induction l generalizing n with
  | nil =>
    cases n with
    | zero => rfl
    | succ n => simp [List.insertIdx_succ_nil]
  | cons b rest ih =>
    cases n with
    | zero => simp [List.insertIdx_zero]
    | succ n => simp [List.insertIdx_succ_cons, ih]

theorem insertIdx_perm {α : Type} (n : Nat) (x : α) (l : List α)
    (h : n ≤ l.length) : (l.insertIdx n x).Perm (x :: l) := by
  rw [insertIdx_take_drop n x l h]
  have hmid := @List.perm_middle _ x (l.take n) (l.drop n)
  rw [List.take_append_drop] at hmid
  exact hmid

theorem count_insertIdx {α : Type} [DecidableEq α] (n : Nat) (x : α)
    (l : List α) (h : n ≤ l.length) (a : α) :
    (l.insertIdx n x).count a = (x :: l).count a :=
  (insertIdx_perm n x l h).count_eq a

theorem map_range_getD {α : Type} (l : List α) (d : α) :
    (List.range l.length).map (fun i => l.getD i d) = l := by
  induction l with
  | nil => rfl
  | cons b rest ih =>
    rw [List.length_cons, List.range_succ_eq_map, List.map_cons, List.map_map]
    have hc : ((fun i => (b :: rest).getD i d) ∘ Nat.succ) =
        fun i => rest.getD i d := by
      funext i
      simp [Function.comp, List.getD_cons_succ]
    rw [hc, ih, List.getD_cons_zero]

theorem find_insert_index_le (k : Nat) (l : List KeyEntry) :
    find_insert_index k l ≤ l.length := by
  induction l with
  | nil => simp [find_insert_index]
  | cons b rest ih =>
    rw [find_insert_index]
    split
    · simp
    · simpa using ih

theorem find_insert_index_before (k : Nat) (l : List KeyEntry) (j : Nat)
    (hj : j < find_insert_index k l) (hlen : j < l.length) :
    (l.getD j default).key < k := by
  induction l generalizing j with
  | nil => simp at hlen
  | cons b rest ih =>
    rw [find_insert_index] at hj
    by_cases hk : k ≤ b.key
    · rw [if_pos hk] at hj
      omega
    · rw [if_neg hk] at hj
      cases j with
      | zero => simpa using Nat.lt_of_not_le hk
      | succ j =>
        rw [List.getD_cons_succ]
        exact ih j (by omega) (by simpa using hlen)

theorem find_insert_index_at (k : Nat) (l : List KeyEntry)
    (h : find_insert_index k l < l.length) :
    k ≤ (l.getD (find_insert_index k l) default).key := by
  induction l with
  | nil => simp at h
  | cons b rest ih =>
    rw [find_insert_index]
    by_cases hk : k ≤ b.key
    · rw [if_pos hk]
      simpa using hk
    · rw [if_neg hk]
      rw [List.getD_cons_succ]
      apply ih
      rw [find_insert_index, if_neg hk] at h
      simpa using h

theorem pairwise_insertIdx_find (l : List KeyEntry) (e : KeyEntry)
    (h : l.Pairwise (fun a b => a.key ≤ b.key)) :
    (l.insertIdx (find_insert_index e.key l) e).Pairwise
      (fun a b => a.key ≤ b.key) := by
  induction l with
  | nil => simp [find_insert_index]
  | cons b rest ih =>
    obtain ⟨hhead, htail⟩ := List.pairwise_cons.mp h
    rw [find_insert_index]
    by_cases hk : e.key ≤ b.key
    · rw [if_pos hk, List.insertIdx_zero]
      refine List.pairwise_cons.mpr ⟨?_, h⟩
      intro x hx
      rcases List.mem_cons.mp hx with hxb | hxr
      · subst hxb; exact hk
      · exact le_trans hk (hhead x hxr)
    · rw [if_neg hk, List.insertIdx_succ_cons]
      refine List.pairwise_cons.mpr ⟨?_, ih htail⟩
      intro x hx
      rcases (List.mem_insertIdx (find_insert_index_le e.key rest)).mp hx with
        hxe | hxr
      · subst hxe
        exact Nat.le_of_lt (Nat.lt_of_not_le hk)
      · exact hhead x hxr

/-- Length of the flattened 2-byte chunks of a directory list. -/
theorem flatten_nat2_length (l : List Nat) :
    ((l.map (natToBytesBE 2)).flatten).length = 2 * l.length := by
  induction l with
  | nil => rfl
  | cons o rest ih =>
    simp only [List.map_cons, List.flatten_cons, List.length_append, ih,
      natToBytesBE_length, List.length_cons]
    ring

/-- Slicing the flattened 2-byte chunks at an aligned position recovers
the chunk of the corresponding element. -/
theorem flatten_nat2_slice (l : List Nat) (i : Nat) (hi : i < l.length) :
    (((l.map (natToBytesBE 2)).flatten).drop (2 * i)).take 2 =
      natToBytesBE 2 (l.getD i 0) := by
  induction l generalizing i with
  | nil => simp at hi
  | cons o rest ih =>
    cases i with
    | zero =>
      simp only [List.map_cons, List.flatten_cons, Nat.mul_zero, List.drop_zero,
        List.getD_cons_zero]
      have key := List.take_left (natToBytesBE 2 o)
        ((rest.map (natToBytesBE 2)).flatten)
      rw [natToBytesBE_length] at key
      exact key
    | succ i =>
      simp only [List.map_cons, List.flatten_cons, List.getD_cons_succ]
      have h2 : 2 * (i + 1) = (natToBytesBE 2 o).length + 2 * i := by
        rw [natToBytesBE_length]
        ring
      rw [h2, List.drop_append]
      exact ih i (by simpa using hi)

/-! Lemma layer: page reads over write regions. -/

theorem byte_past (v : Bytes) (s : Nat) (L : List Nat) (i : Nat)
    (h : i < s ∨ s + L.length ≤ i) : write_byte_list v s L i = v i := by
  rw [wbl_apply, if_neg (by omega)]

theorem read_u16_past (v : Bytes) (s t : Nat) (L : List Nat)
    (h : t + 2 ≤ s ∨ s + L.length ≤ t) :
    read_u16 (write_byte_list v s L) t = read_u16 v t := by
  rw [read_u16, read_u16, readBytes_wbl_disjoint]
  exact h

theorem read_u64_past (v : Bytes) (s t : Nat) (L : List Nat)
    (h : t + 8 ≤ s ∨ s + L.length ≤ t) :
    read_u64 (write_byte_list v s L) t = read_u64 v t := by
  rw [read_u64, read_u64, readBytes_wbl_disjoint]
  exact h

theorem read_u16_wbl_at (v : Bytes) (s t : Nat) (L : List Nat)
    (h1 : s ≤ t) (h2 : t + 2 ≤ s + L.length) :
    read_u16 (write_byte_list v s L) t =
      bytesToNatBE ((L.drop (t - s)).take 2) := by
  rw [read_u16, readBytes_wbl_within v s t 2 L h1 h2]

theorem read_u64_wbl_at (v : Bytes) (s t : Nat) (L : List Nat)
    (h1 : s ≤ t) (h2 : t + 8 ≤ s + L.length) :
    read_u64 (write_byte_list v s L) t =
      bytesToNatBE ((L.drop (t - s)).take 8) := by
  rw [read_u64, readBytes_wbl_within v s t 8 L h1 h2]

/-- write_offsets is the contiguous write of the 2-byte chunks. -/
theorem write_offsets_eq (v : Bytes) (base : Nat) (l : List Nat) :
    write_offsets v base l =
      write_byte_list v base ((l.map (natToBytesBE 2)).flatten) := by
  induction l generalizing v base with
  | nil => rfl
  | cons o rest ih =>
    simp only [write_offsets]
    rw [ih]
    simp only [List.map_cons, List.flatten_cons]
    rw [wbl_append, natToBytesBE_length]
    rfl

/-- Reads ignore the dirty flag. -/
theorem read_n_slots_dirty (p : Page) (b : Bool) :
    read_n_slots { p with is_dirty := b } = read_n_slots p := rfl

theorem read_fragmented_slots_dirty (p : Page) (b : Bool) :
    read_fragmented_slots { p with is_dirty := b } = read_fragmented_slots p := rfl

theorem read_next_empty_offset_dirty (p : Page) (b : Bool) :
    read_next_empty_offset { p with is_dirty := b } = read_next_empty_offset p := rfl

theorem slots_end_dirty (p : Page) (b : Bool) :
    slots_end { p with is_dirty := b } = slots_end p := rfl

theorem iterList_dirty (p : Page) (b : Bool) :
    iterList { p with is_dirty := b } = iterList p := rfl

theorem get_occupied_slots_dirty (p : Page) (b : Bool) :
    get_occupied_slots { p with is_dirty := b } = get_occupied_slots p := rfl

theorem get_fragmented_slots_dirty (p : Page) (b : Bool) :
    get_fragmented_slots { p with is_dirty := b } = get_fragmented_slots p := rfl

theorem length_get_occupied_slots (p : Page) :
    (get_occupied_slots p).length = read_n_slots p := by
  simp [get_occupied_slots]

theorem length_iterList (p : Page) :
    (iterList p).length = read_n_slots p := by
  simp [iterList]

theorem iterList_eq_map (p : Page) :
    iterList p = (get_occupied_slots p).map (decodeAt p) := by
  rw [iterList, get_occupied_slots, List.map_map]
  rfl

theorem get_occupied_mem_lt (p : Page) (hbytes : ∀ i, p.data i < 256) :
    ∀ o ∈ get_occupied_slots p, o < 65536 := by
  intro o ho
  rw [get_occupied_slots] at ho
  obtain ⟨i, _, hio⟩ := List.mem_map.mp ho
  subst hio
  exact read_u16_lt _ _ hbytes

/-- update_slots writes one contiguous region, slot header followed by
the live and fragmented directory entries. -/
theorem update_slots_data (p : Page) (slots frag : List Nat) (ne : Nat)
    (hlen : slots.length < 65536) :
    (update_slots p slots frag ne).data =
      write_byte_list p.data SLOTS_HEADER_START
        (natToBytesBE 2 slots.length ++ (natToBytesBE 2 frag.length ++
          (natToBytesBE 2 ne ++ ((slots.map (natToBytesBE 2)).flatten ++
          (frag.map (natToBytesBE 2)).flatten)))) := by
  simp only [update_slots, write_slots_header, write_u16, write_offsets_eq]
  rw [Nat.mod_eq_of_lt hlen]
  rw [wbl_append, wbl_append, wbl_append, wbl_append]
  simp only [natToBytesBE_length, flatten_nat2_length]
  rw [nat2_mod, nat2_mod]
  norm_num [SLOTS_HEADER_START, SLOTS_OCCUPIED_SLOTS_START,
    SLOTS_FRAGMENTED_SLOTS_START, SLOTS_NEXT_EMPTY_OFFSET_START, SLOTS_START]

/-- write_entry writes one contiguous 18-byte region. -/
theorem write_entry_data (p : Page) (e : KeyEntry) (o : Nat) :
    (write_entry p e o).data =
      write_byte_list p.data o
        (natToBytesBE 8 e.page_id ++ (natToBytesBE 2 (e.slot_index.getD 0) ++
          natToBytesBE 8 e.key)) := by
  simp only [write_entry, write_u64, write_u16, TUPLE_HEADER_SIZE]
  rw [wbl_append, wbl_append]
  simp only [natToBytesBE_length]

theorem drop_chunk (A R : List Nat) (k j : Nat) (h : k = A.length + j) :
    (A ++ R).drop k = R.drop j := by
  subst h
  exact List.drop_append j

theorem takePrefix (mid post : List Nat) (w : Nat) (hw : w = mid.length) :
    (mid ++ post).take w = mid := by
  subst hw
  exact List.take_left mid post

theorem takeAll (K : List Nat) (w : Nat) (hw : w = K.length) :
    K.take w = K := by
  subst hw
  exact List.take_length K

theorem dirSlice (L2 : List Nat) (J2 : List Nat) (i : Nat)
    (hi : i < L2.length) :
    (((L2.map (natToBytesBE 2)).flatten ++ J2).drop (2 * i)).take 2 =
      natToBytesBE 2 (L2.getD i 0) := by
  rw [List.drop_append_of_le_length (by rw [flatten_nat2_length]; omega)]
  rw [List.take_append_of_le_length
    (by rw [List.length_drop, flatten_nat2_length]; omega)]
  exact flatten_nat2_slice L2 i hi

theorem flatten_nat2_lt256 (l : List Nat) :
    ∀ b ∈ (l.map (natToBytesBE 2)).flatten, b < 256 := by
  intro b hb
  obtain ⟨chunk, hchunk, hbc⟩ := List.mem_flatten.mp hb
  obtain ⟨x, _, hx⟩ := List.mem_map.mp hchunk
  subst hx
  exact natToBytesBE_lt256 2 x b hbc

/-- Successful append_key unfolded: the source inserts the new offset at
the scan index and writes the record at next_empty_offset minus 18. -/
theorem append_key_eq (p : Page) (e : KeyEntry)
    (h : ¬(read_next_empty_offset p - 18 < slots_end p)) :
    append_key p e =
      some (write_entry (insert_slot { p with is_dirty := true }
        (find_insert_index e.key (iterList p))
        (read_next_empty_offset p - 18)) e
        (read_next_empty_offset p - 18)) := by
  simp only [append_key, u64KeyLen, TUPLE_HEADER_SIZE,
    read_next_empty_offset_dirty, slots_end_dirty, iterList_dirty]
  norm_num
  intro hc
  exact absurd hc h

/-- The page produced by a successful append_key differs from the input
in exactly two contiguous byte regions: the slot header plus grown
directory, and the 18-byte record at the new offset. -/
theorem append_q_data (p : Page) (e : KeyEntry)
    (hbytes : ∀ i, p.data i < 256)
    (hsp : slots_end p + 2 ≤ read_next_empty_offset p - 18) :
    (write_entry (insert_slot { p with is_dirty := true }
        (find_insert_index e.key (iterList p))
        (read_next_empty_offset p - 18)) e
        (read_next_empty_offset p - 18)).data =
      write_byte_list
        (write_byte_list p.data SLOTS_HEADER_START
          (natToBytesBE 2 (read_n_slots p + 1) ++
            (natToBytesBE 2 (read_fragmented_slots p) ++
              (natToBytesBE 2 (read_next_empty_offset p - 18 - 1) ++
                ((((get_occupied_slots p).insertIdx
                    (find_insert_index e.key (iterList p))
                    (read_next_empty_offset p - 18)).map
                  (natToBytesBE 2)).flatten ++
                  ((get_fragmented_slots p).map (natToBytesBE 2)).flatten)))))
        (read_next_empty_offset p - 18)
        (natToBytesBE 8 e.page_id ++
          (natToBytesBE 2 (e.slot_index.getD 0) ++ natToBytesBE 8 e.key)) := by
  rw [write_entry_data]
  simp only [insert_slot, get_occupied_slots_dirty, get_fragmented_slots_dirty]
  have hidx : find_insert_index e.key (iterList p) ≤
      (get_occupied_slots p).length := by
    rw [length_get_occupied_slots]
    have h := find_insert_index_le e.key (iterList p)
    rw [length_iterList] at h
    exact h
  have hL2len : ((get_occupied_slots p).insertIdx
      (find_insert_index e.key (iterList p))
      (read_next_empty_offset p - 18)).length = read_n_slots p + 1 := by
    rw [List.length_insertIdx _ _ hidx, length_get_occupied_slots]
  have hocclt : read_n_slots p + 1 < 65536 := by
    have h1 : slots_end p = 31 + (read_n_slots p + read_fragmented_slots p) * 2 :=
      rfl
    have h2 : read_next_empty_offset p < 65536 := read_u16_lt _ _ hbytes
    omega
  rw [update_slots_data _ _ _ _ (by rw [hL2len]; exact hocclt)]
  rw [hL2len]
  have hfrlen : (get_fragmented_slots p).length = read_fragmented_slots p := by
    simp [get_fragmented_slots]
  rw [hfrlen]

/-- Full behaviour of a successful append_key on a well-formed page:
the occupied count grows by one, the fragmented count is unchanged, the
next empty offset drops by 19 (entry size 18 plus one), the directory
and iteration sequences gain the new offset and decoded entry at the
scan index, the frame is dirty, and no byte outside the slot header,
the grown directory and the new record region changes. -/
theorem append_key_spec (p q : Page) (e : KeyEntry)
    (hbytes : ∀ i, p.data i < 256)
    (hne18 : 18 ≤ read_next_empty_offset p)
    (hsp : slots_end p + 2 ≤ read_next_empty_offset p - 18)
    (hrec : ∀ o ∈ get_occupied_slots p, read_next_empty_offset p < o)
    (happ : append_key p e = some q) :
    read_n_slots q = read_n_slots p + 1 ∧
    read_fragmented_slots q = read_fragmented_slots p ∧
    read_next_empty_offset q = read_next_empty_offset p - 19 ∧
    get_occupied_slots q = (get_occupied_slots p).insertIdx
      (find_insert_index e.key (iterList p)) (read_next_empty_offset p - 18) ∧
    iterList q = (iterList p).insertIdx (find_insert_index e.key (iterList p))
      (decodedEntry p e) ∧
    q.is_dirty = true ∧
    q.page_id = p.page_id ∧
    (∀ i, q.data i < 256) ∧
    (∀ i, i < HEADER_SIZE → q.data i = p.data i) ∧
    (∀ i, slots_end p + 2 ≤ i → i < read_next_empty_offset p - 18 →
      q.data i = p.data i) ∧
    (∀ i, read_next_empty_offset p ≤ i → q.data i = p.data i) ∧
    read_u16 q.data (read_next_empty_offset p - 18 + 8) =
      e.slot_index.getD 0 % 65536 := by
  have hselit : slots_end p =
      31 + (read_n_slots p + read_fragmented_slots p) * 2 := rfl
  have hne_lt : read_next_empty_offset p < 65536 := read_u16_lt _ _ hbytes
  have hguard : ¬(read_next_empty_offset p - 18 < slots_end p) := by omega
  rw [append_key_eq p e hguard] at happ
  injection happ with hq
  subst hq
  have hSH : SLOTS_HEADER_START = 25 := rfl
  have hST : SLOTS_START = 31 := rfl
  have hSO : SLOTS_OCCUPIED_SLOTS_START = 25 := rfl
  have hSF : SLOTS_FRAGMENTED_SLOTS_START = 27 := rfl
  have hSN : SLOTS_NEXT_EMPTY_OFFSET_START = 29 := rfl
  have hPT : PAGE_TYPE_START = 4 := rfl
  have hTH : TUPLE_HEADER_SIZE = 10 := rfl
  have hHS : HEADER_SIZE = 25 := rfl
  have hfrglen : (get_fragmented_slots p).length = read_fragmented_slots p := by
    simp [get_fragmented_slots]
  have hocc_lt : read_n_slots p < 65536 := read_u16_lt _ _ hbytes
  have hfrg_lt : read_fragmented_slots p < 65536 := read_u16_lt _ _ hbytes
  have hdata := append_q_data p e hbytes hsp
  set occ := read_n_slots p with hocc_def
  set frg := read_fragmented_slots p with hfrg_def
  set ne := read_next_empty_offset p with hne_def
  set idx := find_insert_index e.key (iterList p) with hidx_def
  set L := get_occupied_slots p with hL_def
  set L2 := L.insertIdx idx (ne - 18) with hL2_def
  set A := natToBytesBE 2 (occ + 1) with hA_def
  set B := natToBytesBE 2 frg with hB_def
  set C := natToBytesBE 2 (ne - 18 - 1) with hC_def
  set J1 := (L2.map (natToBytesBE 2)).flatten with hJ1_def
  set J2 := ((get_fragmented_slots p).map (natToBytesBE 2)).flatten with hJ2_def
  set HD := A ++ (B ++ (C ++ (J1 ++ J2))) with hHD_def
  set REC := natToBytesBE 8 e.page_id ++
    (natToBytesBE 2 (e.slot_index.getD 0) ++ natToBytesBE 8 e.key) with hREC_def
  set W := write_entry (insert_slot { p with is_dirty := true } idx (ne - 18))
    e (ne - 18) with hW_def
  have hLlen : L.length = occ := length_get_occupied_slots p
  have hIlen : (iterList p).length = occ := length_iterList p
  have hidx_le : idx ≤ occ := by
    have h := find_insert_index_le e.key (iterList p)
    rw [hIlen] at h
    exact h
  have hL2len : L2.length = occ + 1 := by
    rw [hL2_def, List.length_insertIdx _ _ (by rw [hLlen]; exact hidx_le), hLlen]
  have hHDlen : HD.length = 6 + (2 * (occ + 1) + 2 * frg) := by
    rw [hHD_def, hA_def, hB_def, hC_def, hJ1_def, hJ2_def]
    simp only [List.length_append, natToBytesBE_length, flatten_nat2_length,
      hL2len, hfrglen]
    ring
  have hREClen : REC.length = 18 := by
    rw [hREC_def]
    simp only [List.length_append, natToBytesBE_length]
  have hread16 : ∀ t, SLOTS_HEADER_START ≤ t →
      t + 2 ≤ SLOTS_HEADER_START + HD.length →
      read_u16 (write_byte_list (write_byte_list p.data SLOTS_HEADER_START HD)
        (ne - 18) REC) t =
      bytesToNatBE ((HD.drop (t - SLOTS_HEADER_START)).take 2) := by
    intro t h1 h2
    rw [read_u16_past _ (ne - 18) t REC (Or.inl (by omega))]
    exact read_u16_wbl_at p.data SLOTS_HEADER_START t HD h1 h2
  have con1 : read_n_slots W = occ + 1 := by
    show read_u16 W.data SLOTS_OCCUPIED_SLOTS_START = occ + 1
    rw [hdata, hread16 SLOTS_OCCUPIED_SLOTS_START (by omega) (by omega)]
    have e0 : SLOTS_OCCUPIED_SLOTS_START - SLOTS_HEADER_START = 0 := rfl
    rw [e0, List.drop_zero, hHD_def]
    rw [takePrefix A (B ++ (C ++ (J1 ++ J2))) 2
      (by rw [hA_def, natToBytesBE_length])]
    rw [hA_def, bytesToNatBE_natToBytesBE]
    have h2 : (256 : Nat) ^ 2 = 65536 := by norm_num
    rw [h2]
    exact Nat.mod_eq_of_lt (by omega)
  have con2 : read_fragmented_slots W = frg := by
    show read_u16 W.data SLOTS_FRAGMENTED_SLOTS_START = frg
    rw [hdata, hread16 SLOTS_FRAGMENTED_SLOTS_START (by omega) (by omega)]
    have e2 : SLOTS_FRAGMENTED_SLOTS_START - SLOTS_HEADER_START = 2 := rfl
    rw [e2, hHD_def]
    rw [drop_chunk A (B ++ (C ++ (J1 ++ J2))) 2 0
      (by rw [hA_def, natToBytesBE_length])]
    rw [List.drop_zero]
    rw [takePrefix B (C ++ (J1 ++ J2)) 2 (by rw [hB_def, natToBytesBE_length])]
    rw [hB_def, bytesToNatBE_natToBytesBE]
    have h2 : (256 : Nat) ^ 2 = 65536 := by norm_num
    rw [h2]
    exact Nat.mod_eq_of_lt (by omega)
  have con3 : read_next_empty_offset W = ne - 19 := by
    show read_u16 W.data SLOTS_NEXT_EMPTY_OFFSET_START = ne - 19
    rw [hdata, hread16 SLOTS_NEXT_EMPTY_OFFSET_START (by omega) (by omega)]
    have e4 : SLOTS_NEXT_EMPTY_OFFSET_START - SLOTS_HEADER_START = 4 := rfl
    rw [e4, hHD_def]
    rw [drop_chunk A (B ++ (C ++ (J1 ++ J2))) 4 2
      (by rw [hA_def, natToBytesBE_length])]
    rw [drop_chunk B (C ++ (J1 ++ J2)) 2 0
      (by rw [hB_def, natToBytesBE_length])]
    rw [List.drop_zero]
    rw [takePrefix C (J1 ++ J2) 2 (by rw [hC_def, natToBytesBE_length])]
    rw [hC_def, bytesToNatBE_natToBytesBE]
    have h2 : (256 : Nat) ^ 2 = 65536 := by norm_num
    rw [h2]
    rw [Nat.mod_eq_of_lt (by omega)]
    omega
  have hslot : ∀ i, i < occ + 1 → get_entry_offset W i = L2.getD i 0 := by
    intro i hi
    show read_u16 W.data (SLOTS_START + 2 * i) = L2.getD i 0
    rw [hdata, hread16 (SLOTS_START + 2 * i) (by omega) (by omega)]
    have e6 : SLOTS_START + 2 * i - SLOTS_HEADER_START = 6 + 2 * i := by omega
    rw [e6, hHD_def]
    rw [drop_chunk A (B ++ (C ++ (J1 ++ J2))) (6 + 2 * i) (4 + 2 * i)
      (by rw [hA_def, natToBytesBE_length]; omega)]
    rw [drop_chunk B (C ++ (J1 ++ J2)) (4 + 2 * i) (2 + 2 * i)
      (by rw [hB_def, natToBytesBE_length]; omega)]
    rw [drop_chunk C (J1 ++ J2) (2 + 2 * i) (2 * i)
      (by rw [hC_def, natToBytesBE_length])]
    rw [hJ1_def, hJ2_def]
    rw [dirSlice L2 _ i (by omega)]
    rw [bytesToNatBE_natToBytesBE]
    have h2 : (256 : Nat) ^ 2 = 65536 := by norm_num
    rw [h2]
    apply Nat.mod_eq_of_lt
    have hmem : L2.getD i 0 ∈ L2 := by
      rw [List.getD_eq_getElem L2 0 (by omega)]
      exact List.getElem_mem _
    have hmem2 : L2.getD i 0 ∈ List.insertIdx idx (ne - 18) L := by
      rw [← hL2_def]
      exact hmem
    rcases (List.mem_insertIdx (by rw [hLlen]; exact hidx_le)).mp hmem2 with
      h1 | h2m
    · omega
    · exact get_occupied_mem_lt p hbytes _ h2m
  have con4 : get_occupied_slots W = L2 := by
    show (List.range (read_n_slots W)).map (get_entry_offset W) = L2
    rw [con1]
    have hcongr : (List.range (occ + 1)).map (get_entry_offset W) =
        (List.range (occ + 1)).map (fun i => L2.getD i 0) :=
      List.map_congr_left (fun a ha => hslot a (List.mem_range.mp ha))
    rw [hcongr, ← hL2len]
    exact map_range_getD L2 0
  have htag : W.read_page_type = p.read_page_type := by
    show W.data PAGE_TYPE_START = p.data PAGE_TYPE_START
    rw [hdata]
    rw [byte_past _ (ne - 18) REC PAGE_TYPE_START (Or.inl (by omega))]
    rw [byte_past _ SLOTS_HEADER_START HD PAGE_TYPE_START (Or.inl (by omega))]
  have hdec_old : ∀ o, ne < o → decodeAt W o = decodeAt p o := by
    intro o ho
    simp only [decodeAt]
    rw [hdata, htag]
    rw [read_u64_past (write_byte_list p.data SLOTS_HEADER_START HD)
      (ne - 18) o REC (Or.inr (by omega))]
    rw [read_u64_past p.data SLOTS_HEADER_START o HD (Or.inr (by omega))]
    rw [read_u16_past (write_byte_list p.data SLOTS_HEADER_START HD)
      (ne - 18) (o + 8) REC (Or.inr (by omega))]
    rw [read_u16_past p.data SLOTS_HEADER_START (o + 8) HD (Or.inr (by omega))]
    rw [read_u64_past (write_byte_list p.data SLOTS_HEADER_START HD)
      (ne - 18) (o + TUPLE_HEADER_SIZE) REC (Or.inr (by omega))]
    rw [read_u64_past p.data SLOTS_HEADER_START (o + TUPLE_HEADER_SIZE) HD
      (Or.inr (by omega))]
  have hdec_new : decodeAt W (ne - 18) = decodedEntry p e := by
    simp only [decodeAt, decodedEntry]
    rw [hdata, htag]
    rw [read_u64_wbl_at (write_byte_list p.data SLOTS_HEADER_START HD)
      (ne - 18) (ne - 18) REC (Nat.le_refl _) (by omega)]
    rw [read_u16_wbl_at (write_byte_list p.data SLOTS_HEADER_START HD)
      (ne - 18) (ne - 18 + 8) REC (by omega) (by omega)]
    rw [read_u64_wbl_at (write_byte_list p.data SLOTS_HEADER_START HD)
      (ne - 18) (ne - 18 + TUPLE_HEADER_SIZE) REC (by omega) (by omega)]
    have e0 : ne - 18 - (ne - 18) = 0 := by omega
    have e8 : ne - 18 + 8 - (ne - 18) = 8 := by omega
    have e10 : ne - 18 + TUPLE_HEADER_SIZE - (ne - 18) = 10 := by omega
    rw [e0, e8, e10, List.drop_zero, hREC_def]
    rw [takePrefix (natToBytesBE 8 e.page_id)
      (natToBytesBE 2 (e.slot_index.getD 0) ++ natToBytesBE 8 e.key) 8
      (by rw [natToBytesBE_length])]
    rw [drop_chunk (natToBytesBE 8 e.page_id)
      (natToBytesBE 2 (e.slot_index.getD 0) ++ natToBytesBE 8 e.key) 8 0
      (by rw [natToBytesBE_length])]
    rw [drop_chunk (natToBytesBE 8 e.page_id)
      (natToBytesBE 2 (e.slot_index.getD 0) ++ natToBytesBE 8 e.key) 10 2
      (by rw [natToBytesBE_length])]
    rw [List.drop_zero]
    rw [takePrefix (natToBytesBE 2 (e.slot_index.getD 0)) (natToBytesBE 8 e.key)
      2 (by rw [natToBytesBE_length])]
    rw [drop_chunk (natToBytesBE 2 (e.slot_index.getD 0)) (natToBytesBE 8 e.key)
      2 0 (by rw [natToBytesBE_length])]
    rw [List.drop_zero]
    rw [takeAll (natToBytesBE 8 e.key) 8 (by rw [natToBytesBE_length])]
    rw [bytesToNatBE_natToBytesBE, bytesToNatBE_natToBytesBE,
      bytesToNatBE_natToBytesBE]
    norm_num
  have hiter : iterList W = (iterList p).insertIdx idx (decodedEntry p e) := by
    rw [iterList_eq_map W, con4, hL2_def]
    rw [map_insertIdx (decodeAt W) idx (ne - 18) L]
    rw [hdec_new]
    have hmapc : L.map (decodeAt W) = L.map (decodeAt p) :=
      List.map_congr_left (fun o ho => hdec_old o (hrec o ho))
    rw [hmapc, ← iterList_eq_map p]
  have hHD256 : ∀ b ∈ HD, b < 256 := by
    intro b hb
    rw [hHD_def] at hb
    simp only [List.mem_append] at hb
    rcases hb with hb | hb | hb | hb | hb
    · rw [hA_def] at hb
      exact natToBytesBE_lt256 _ _ b hb
    · rw [hB_def] at hb
      exact natToBytesBE_lt256 _ _ b hb
    · rw [hC_def] at hb
      exact natToBytesBE_lt256 _ _ b hb
    · rw [hJ1_def] at hb
      exact flatten_nat2_lt256 _ b hb
    · rw [hJ2_def] at hb
      exact flatten_nat2_lt256 _ b hb
  have hREC256 : ∀ b ∈ REC, b < 256 := by
    intro b hb
    rw [hREC_def] at hb
    simp only [List.mem_append] at hb
    rcases hb with hb | hb | hb
    · exact natToBytesBE_lt256 _ _ b hb
    · exact natToBytesBE_lt256 _ _ b hb
    · exact natToBytesBE_lt256 _ _ b hb
  have con8 : ∀ i, W.data i < 256 := by
    intro i
    rw [hdata]
    exact wbl_lt256 _ _ _ (wbl_lt256 _ _ _ hbytes hHD256) hREC256 i
  have con9 : ∀ i, i < HEADER_SIZE → W.data i = p.data i := by
    intro i hi
    rw [hdata]
    rw [byte_past _ (ne - 18) REC i (Or.inl (by omega))]
    rw [byte_past _ SLOTS_HEADER_START HD i (Or.inl (by omega))]
  have con10 : ∀ i, slots_end p + 2 ≤ i → i < ne - 18 →
      W.data i = p.data i := by
    intro i hi1 hi2
    rw [hdata]
    rw [byte_past _ (ne - 18) REC i (Or.inl (by omega))]
    rw [byte_past _ SLOTS_HEADER_START HD i (Or.inr (by omega))]
  have con11 : ∀ i, ne ≤ i → W.data i = p.data i := by
    intro i hi
    rw [hdata]
    rw [byte_past _ (ne - 18) REC i (Or.inr (by omega))]
    rw [byte_past _ SLOTS_HEADER_START HD i (Or.inr (by omega))]
  have con12 : read_u16 W.data (ne - 18 + 8) = e.slot_index.getD 0 % 65536 := by
    rw [hdata]
    rw [read_u16_wbl_at (write_byte_list p.data SLOTS_HEADER_START HD)
      (ne - 18) (ne - 18 + 8) REC (by omega) (by omega)]
    have e8 : ne - 18 + 8 - (ne - 18) = 8 := by omega
    rw [e8, hREC_def]
    rw [drop_chunk (natToBytesBE 8 e.page_id)
      (natToBytesBE 2 (e.slot_index.getD 0) ++ natToBytesBE 8 e.key) 8 0
      (by rw [natToBytesBE_length])]
    rw [List.drop_zero]
    rw [takePrefix (natToBytesBE 2 (e.slot_index.getD 0)) (natToBytesBE 8 e.key)
      2 (by rw [natToBytesBE_length])]
    rw [bytesToNatBE_natToBytesBE]
    norm_num
  exact ⟨con1, con2, con3, con4, hiter, rfl, rfl, con8, con9, con10, con11,
    con12⟩

theorem read_u16_wbl_hit (v : Bytes) (s n : Nat) :
    read_u16 (write_byte_list v s (natToBytesBE 2 n)) s = n % 65536 :=
  read_u16_write_u16 v s n

set_option maxHeartbeats 1000000 in
/-- Slot header, type tag, byte bounds and dirty flag of a page
initialized on a zeroed frame. -/
theorem init_page_spec (t par pid : Nat) :
    read_n_slots (init_page t par (zeroPage pid)) = 0 ∧
    read_fragmented_slots (init_page t par (zeroPage pid)) = 0 ∧
    read_next_empty_offset (init_page t par (zeroPage pid)) = 1023 ∧
    (init_page t par (zeroPage pid)).read_page_type = t % 256 ∧
    (∀ i, (init_page t par (zeroPage pid)).data i < 256) ∧
    (init_page t par (zeroPage pid)).is_dirty = true := by
  simp only [init_page, Page.write_header, write_slots_header, write_u16,
    write_u32, write_u64, Page.page_size, PAGE_SIZE_BYTES, zeroPage,
    MAGIC_NUMBER_START, PAGE_TYPE_START, LOG_SEQUENCE_NUMBER_START,
    PARENT_PAGE_ID_START, PAGE_ID_START, SLOTS_OCCUPIED_SLOTS_START,
    SLOTS_FRAGMENTED_SLOTS_START, SLOTS_NEXT_EMPTY_OFFSET_START,
    read_n_slots, read_fragmented_slots, read_next_empty_offset,
    Page.read_page_type]
  refine ⟨?_, ?_, ?_, ?_, ?_, trivial⟩
  · rw [read_u16_past _ 29 25 _ (Or.inl (by norm_num))]
    rw [read_u16_past _ 27 25 _ (Or.inl (by norm_num))]
    rw [read_u16_wbl_hit]
  · rw [read_u16_past _ 29 27 _ (Or.inl (by norm_num))]
    rw [read_u16_wbl_hit]
  · rw [read_u16_wbl_hit]
  · rw [byte_past _ 29 _ 4 (Or.inl (by norm_num))]
    rw [byte_past _ 27 _ 4 (Or.inl (by norm_num))]
    rw [byte_past _ 25 _ 4 (Or.inl (by norm_num))]
    rw [byte_past _ 17 _ 4 (Or.inl (by norm_num))]
    rw [byte_past _ 9 _ 4 (Or.inl (by norm_num))]
    rw [byte_past _ 5 _ 4 (Or.inl (by norm_num))]
    rw [wbl_apply]
    norm_num
  · intro i
    have hsing : ∀ b ∈ [t % 256], b < 256 := by
      intro b hb
      simp only [List.mem_singleton] at hb
      subst hb
      omega
    have hzero : ∀ j : Nat, (fun _ : Nat => 0) j < 256 := by
      intro j
      norm_num
    have s1 := wbl_lt256 _ 0 _ hzero (natToBytesBE_lt256 4 PAGE_MAGIC_NUMBER)
    have s2 := wbl_lt256 _ 4 _ s1 hsing
    have s3 := wbl_lt256 _ 5 _ s2 (natToBytesBE_lt256 4 0)
    have s4 := wbl_lt256 _ 9 _ s3 (natToBytesBE_lt256 8 par)
    have s5 := wbl_lt256 _ 17 _ s4 (natToBytesBE_lt256 8 pid)
    have s6 := wbl_lt256 _ 25 _ s5 (natToBytesBE_lt256 2 0)
    have s7 := wbl_lt256 _ 27 _ s6 (natToBytesBE_lt256 2 0)
    have s8 := wbl_lt256 _ 29 _ s7 (natToBytesBE_lt256 2 (1024 - 1))
    exact s8 i

/-- Every reachable page satisfies the page invariant. -/
theorem reached_inv (p : Page) (hp : Reached p) : PageInv p := by
  induction hp with
  | base t par pid ht =>
    obtain ⟨h1, h2, h3, h4, h5, _⟩ := init_page_spec t par pid
    refine ⟨h5, ?_, h2, ?_, ?_, ?_, ?_⟩
    · rcases ht with ht | ht <;> subst ht
      · exact Or.inl h4
      · exact Or.inr h4
    · rw [h3, h1]
    · rw [h1]
      omega
    · intro o ho
      rw [get_occupied_slots, h1] at ho
      simp at ho
    · rw [iterList, h1]
      simp
  | step p q e hp hkey hpid hsi happ ih =>
    obtain ⟨hbytes, htag, hfrag, hneq, hocc47, hrecs, hsorted⟩ := ih
    have hselit : slots_end p =
        31 + (read_n_slots p + read_fragmented_slots p) * 2 := rfl
    by_cases hg : read_next_empty_offset p - 18 < slots_end p
    · exfalso
      have hnone : append_key p e = none := by
        simp only [append_key, u64KeyLen, TUPLE_HEADER_SIZE,
          read_next_empty_offset_dirty, slots_end_dirty]
        norm_num
        intro hc
        omega
      rw [hnone] at happ
      exact Option.noConfusion happ
    · have hocc46 : read_n_slots p ≤ 46 := by omega
      have hne18 : 18 ≤ read_next_empty_offset p := by omega
      have hsp : slots_end p + 2 ≤ read_next_empty_offset p - 18 := by omega
      have hrec1 : ∀ o ∈ get_occupied_slots p,
          read_next_empty_offset p < o := fun o ho => (hrecs o ho).1
      obtain ⟨c1, c2, c3, c4, c5, _, _, c8, c9, c10, c11, _⟩ :=
        append_key_spec p q e hbytes hne18 hsp hrec1 happ
      have htagq : q.read_page_type = p.read_page_type :=
        c9 PAGE_TYPE_START (by norm_num [PAGE_TYPE_START, HEADER_SIZE])
      refine ⟨c8, ?_, ?_, ?_, ?_, ?_, ?_⟩
      · rw [htagq]
        exact htag
      · rw [c2]
        exact hfrag
      · rw [c3, c1, hneq]
        omega
      · rw [c1]
        omega
      · intro o ho
        rw [c4] at ho
        have hidxle : find_insert_index e.key (iterList p) ≤
            (get_occupied_slots p).length := by
          have h := find_insert_index_le e.key (iterList p)
          rw [length_iterList] at h
          rw [length_get_occupied_slots]
          exact h
        rcases (List.mem_insertIdx hidxle).mp ho with h1 | h2
        · subst h1
          refine ⟨?_, ?_⟩
          · rw [c3]
            omega
          · omega
        · obtain ⟨ho1, ho2⟩ := hrecs o h2
          refine ⟨?_, ho2⟩
          rw [c3]
          omega
      · rw [c5]
        have hkeq : e.key = (decodedEntry p e).key := by
          show e.key = e.key % 2 ^ 64
          rw [Nat.mod_eq_of_lt hkey]
        rw [hkeq]
        exact pairwise_insertIdx_find (iterList p) (decodedEntry p e) hsorted

/-- A successful append_key implies the page-full guard did not fire. -/
theorem append_some_guard (p q : Page) (e : KeyEntry)
    (happ : append_key p e = some q) :
    ¬(read_next_empty_offset p - 18 < slots_end p) := by
  intro hg
  have hnone : append_key p e = none := by
    simp only [append_key, u64KeyLen, TUPLE_HEADER_SIZE,
      read_next_empty_offset_dirty, slots_end_dirty]
    norm_num
    intro hc
    omega
  rw [hnone] at happ
  exact Option.noConfusion happ

/-- The iterator element at a live index is read_key_node at that index. -/
theorem iterList_getD (p : Page) (i : Nat) (hi : i < read_n_slots p) :
    (iterList p).getD i default = read_key_node p i := by
  rw [iterList]
  rw [List.getD_eq_getElem _ _ (by simp; omega)]
  rw [List.getElem_map]
  rw [List.getElem_range]

/-- The numeric facts shared by the claim proofs on a reachable page
with a successful append. -/
theorem reached_append_bounds (p q : Page) (e : KeyEntry) (hp : Reached p)
    (happ : append_key p e = some q) :
    18 ≤ read_next_empty_offset p ∧
    slots_end p + 2 ≤ read_next_empty_offset p - 18 ∧
    read_n_slots p ≤ 46 ∧
    19 ≤ read_next_empty_offset p := by
  obtain ⟨hbytes, htag, hfrag, hneq, hocc47, hrecs, hsorted⟩ := reached_inv p hp
  have hselit : slots_end p =
      31 + (read_n_slots p + read_fragmented_slots p) * 2 := rfl
  have hguard := append_some_guard p q e happ
  refine ⟨by omega, by omega, by omega, by omega⟩

/-- C1 counterexample: at pageDup1, an initialized index page with one
entry and ample free space, a successful append of an equal entry drops
next_empty_offset from 1004 to 985, a decrease of 19, not key len plus
10 which is 18; and iterate then yields the entry twice, not exactly
once. -/
theorem claim_C1_counterexample :
    (append_key pageDup1 (KeyEntry.mk 1 14 none)).isSome = true ∧
    read_next_empty_offset pageDup1 = 1004 ∧
    read_next_empty_offset pageDup2 = 985 ∧
    read_next_empty_offset pageDup1 - read_next_empty_offset pageDup2 ≠
      8 + 10 ∧
    List.count (KeyEntry.mk 1 14 none) (iterList pageDup2) = 2 := by
  decide

/-- C1 as amended: on every reachable page, a successful append_key
raises the occupied count by exactly one, adds exactly one occurrence of
the decoded entry to the iteration, lowers next_empty_offset by exactly
key len plus 11 (the slot header is rewritten with new_offset minus
one), and keeps the directory end at most next_empty_offset plus one. -/
theorem claim_C1_theorem (p q : Page) (e : KeyEntry) (hp : Reached p)
    (happ : append_key p e = some q) :
    read_n_slots q = read_n_slots p + 1 ∧
    List.count (decodedEntry p e) (iterList q) =
      List.count (decodedEntry p e) (iterList p) + 1 ∧
    read_next_empty_offset p = read_next_empty_offset q + (8 + 11) ∧
    slots_end q ≤ read_next_empty_offset q + 1 := by
  obtain ⟨hbytes, htag, hfrag, hneq, hocc47, hrecs, hsorted⟩ := reached_inv p hp
  obtain ⟨hne18, hsp, hocc46, hne19⟩ := reached_append_bounds p q e hp happ
  obtain ⟨c1, c2, c3, c4, c5, _, _, _, _, _, _, _⟩ :=
    append_key_spec p q e hbytes hne18 hsp (fun o ho => (hrecs o ho).1) happ
  refine ⟨c1, ?_, by omega, ?_⟩
  · rw [c5]
    rw [count_insertIdx _ _ _ (find_insert_index_le e.key (iterList p))]
    exact List.count_cons_self _ _
  · have hseq : slots_end q =
        31 + (read_n_slots q + read_fragmented_slots q) * 2 := rfl
    have hselit : slots_end p =
        31 + (read_n_slots p + read_fragmented_slots p) * 2 := rfl
    omega

/-- C1 witness: the amended claim instantiated on the fresh page
pageExample0 and the append producing pageDup1. -/
theorem claim_C1_witness :
    Reached pageExample0 ∧
    append_key pageExample0 (KeyEntry.mk 1 14 none) = some pageDup1 ∧
    (read_n_slots pageDup1 = read_n_slots pageExample0 + 1 ∧
      List.count (decodedEntry pageExample0 (KeyEntry.mk 1 14 none))
        (iterList pageDup1) =
      List.count (decodedEntry pageExample0 (KeyEntry.mk 1 14 none))
        (iterList pageExample0) + 1 ∧
      read_next_empty_offset pageExample0 =
        read_next_empty_offset pageDup1 + (8 + 11) ∧
      slots_end pageDup1 ≤ read_next_empty_offset pageDup1 + 1) := by
  have h0 : Reached pageExample0 := Reached.base indexNodeTag 123 0 (Or.inl rfl)
  have happ : append_key pageExample0 (KeyEntry.mk 1 14 none) =
      some pageDup1 := rfl
  exact ⟨h0, happ,
    claim_C1_theorem pageExample0 pageDup1 (KeyEntry.mk 1 14 none) h0 happ⟩

/-- C2: on every page reachable by init_page and successful appends, the
keys yielded by the iterator in slot-directory order are non-decreasing
at every adjacent pair. -/
theorem claim_C2_theorem (p : Page) (hp : Reached p) :
    ∀ i, i + 1 < (iterList p).length →
      ((iterList p).getD i default).key ≤
        ((iterList p).getD (i + 1) default).key := by
  have hs := (reached_inv p hp).2.2.2.2.2.2
  intro i hi
  rw [List.getD_eq_getElem _ _ (by omega), List.getD_eq_getElem _ _ (by omega)]
  exact List.pairwise_iff_getElem.mp hs i (i + 1) (by omega) (by omega)
    (by omega)

/-- C2 witness: the reverse-order insertion scenario of the repository
tests, keys 3 then 1, iterates in non-decreasing order. -/
theorem claim_C2_witness :
    Reached pageRev2 ∧
    ((iterList pageRev2).getD 0 default).key ≤
      ((iterList pageRev2).getD 1 default).key := by
  have h0 : Reached pageExample0 := Reached.base indexNodeTag 123 0 (Or.inl rfl)
  have h1 : Reached pageRev1 := Reached.step pageExample0 pageRev1
    (KeyEntry.mk 3 14 none) h0 (by decide) (by decide) (by decide) rfl
  have h2 : Reached pageRev2 := Reached.step pageRev1 pageRev2
    (KeyEntry.mk 1 16 none) h1 (by decide) (by decide) (by decide) rfl
  exact ⟨h2, claim_C2_theorem pageRev2 h2 0 (by decide)⟩

/-- C8: when append_key inserts an entry, the iteration splits as a
prefix of strictly smaller keys, then the new decoded entry, then the
rest; in particular the new entry is placed before every existing entry
with an equal key, so iteration yields the newest equal-keyed entry
first. -/
theorem claim_C8_theorem (p q : Page) (e : KeyEntry) (hp : Reached p)
    (happ : append_key p e = some q) :
    ∃ l1 l2, iterList p = l1 ++ l2 ∧
      iterList q = l1 ++ (decodedEntry p e) :: l2 ∧
      ∀ x ∈ l1, x.key < e.key := by
  obtain ⟨hbytes, htag, hfrag, hneq, hocc47, hrecs, hsorted⟩ := reached_inv p hp
  obtain ⟨hne18, hsp, hocc46, hne19⟩ := reached_append_bounds p q e hp happ
  obtain ⟨_, _, _, _, c5, _, _, _, _, _, _, _⟩ :=
    append_key_spec p q e hbytes hne18 hsp (fun o ho => (hrecs o ho).1) happ
  refine ⟨(iterList p).take (find_insert_index e.key (iterList p)),
    (iterList p).drop (find_insert_index e.key (iterList p)),
    (List.take_append_drop _ _).symm, ?_, ?_⟩
  · rw [c5,
      insertIdx_take_drop _ _ _ (find_insert_index_le e.key (iterList p))]
  · intro x hx
    obtain ⟨j, hj, hxj⟩ := List.mem_iff_getElem.mp hx
    rw [List.length_take, lt_min_iff] at hj
    have hkey := find_insert_index_before e.key (iterList p) j hj.1 hj.2
    rw [List.getD_eq_getElem _ _ hj.2] at hkey
    rw [← hxj, List.getElem_take]
    exact hkey

/-- C8 witness: appending a second entry with the already-present key 1
into pageDup1 places it before the existing equal-keyed entry. -/
theorem claim_C8_witness :
    Reached pageDup1 ∧
    append_key pageDup1 (KeyEntry.mk 1 99 none) = some pageEq2 ∧
    (∃ l1 l2, iterList pageDup1 = l1 ++ l2 ∧
      iterList pageEq2 =
        l1 ++ (decodedEntry pageDup1 (KeyEntry.mk 1 99 none)) :: l2 ∧
      ∀ x ∈ l1, x.key < (KeyEntry.mk 1 99 none).key) := by
  have h0 : Reached pageExample0 := Reached.base indexNodeTag 123 0 (Or.inl rfl)
  have h1 : Reached pageDup1 := Reached.step pageExample0 pageDup1
    (KeyEntry.mk 1 14 none) h0 (by decide) (by decide) (by decide) rfl
  have happ : append_key pageDup1 (KeyEntry.mk 1 99 none) = some pageEq2 := rfl
  exact ⟨h1, happ,
    claim_C8_theorem pageDup1 pageEq2 (KeyEntry.mk 1 99 none) h1 happ⟩

/-- C9 counterexample: on the interior page pageExample0 the repository
test appends an entry carrying slot index 289; the two bytes of the
slot_index_in_child field of the written record hold 289, not the
claimed placeholder 0. -/
theorem claim_C9_counterexample :
    pageExample0.read_page_type = indexNodeTag ∧
    (append_key pageExample0 (KeyEntry.mk 23 345 (some 289))).isSome = true ∧
    read_u16 pageC9.data (read_next_empty_offset pageC9 + 1 + 8) = 289 ∧
    (289 : Nat) ≠ 0 := by
  decide

/-- C9 as amended: append_key writes the slot_index_in_child field as
the entry value, with 0 substituted only for an absent index, on every
page type; read_key_node interprets the field only on IndexLeaf pages
and returns none for interior nodes. -/
theorem claim_C9_theorem (p q : Page) (e : KeyEntry) (hp : Reached p)
    (happ : append_key p e = some q) :
    read_u16 q.data (read_next_empty_offset p - 18 + 8) =
      e.slot_index.getD 0 % 65536 ∧
    read_key_node q (find_insert_index e.key (iterList p)) =
      decodedEntry p e ∧
    (decodedEntry p e).slot_index =
      (if p.read_page_type = indexLeafTag
        then some (e.slot_index.getD 0 % 65536) else none) := by
  obtain ⟨hbytes, htag, hfrag, hneq, hocc47, hrecs, hsorted⟩ := reached_inv p hp
  obtain ⟨hne18, hsp, hocc46, hne19⟩ := reached_append_bounds p q e hp happ
  obtain ⟨c1, _, _, _, c5, _, _, _, _, _, _, c12⟩ :=
    append_key_spec p q e hbytes hne18 hsp (fun o ho => (hrecs o ho).1) happ
  have hidxle : find_insert_index e.key (iterList p) ≤ read_n_slots p := by
    have h := find_insert_index_le e.key (iterList p)
    rw [length_iterList] at h
    exact h
  refine ⟨c12, ?_, rfl⟩
  have hlt : find_insert_index e.key (iterList p) < read_n_slots q := by omega
  rw [← iterList_getD q _ hlt, c5]
  have hlen2 : find_insert_index e.key (iterList p) <
      ((iterList p).insertIdx (find_insert_index e.key (iterList p))
        (decodedEntry p e)).length := by
    rw [List.length_insertIdx _ _ (by rw [length_iterList]; exact hidxle),
      length_iterList]
    omega
  rw [List.getD_eq_getElem _ _ hlen2]
  exact List.getElem_insertIdx_self _ _ _
    (by rw [length_iterList]; exact hidxle)

/-- C9 witness: the amended claim at the add_key test input, an interior
page receiving slot index 289. -/
theorem claim_C9_witness :
    Reached pageExample0 ∧
    append_key pageExample0 (KeyEntry.mk 23 345 (some 289)) = some pageC9 ∧
    (read_u16 pageC9.data (read_next_empty_offset pageExample0 - 18 + 8) =
      (KeyEntry.mk 23 345 (some 289)).slot_index.getD 0 % 65536 ∧
    read_key_node pageC9
      (find_insert_index 23 (iterList pageExample0)) =
      decodedEntry pageExample0 (KeyEntry.mk 23 345 (some 289)) ∧
    (decodedEntry pageExample0 (KeyEntry.mk 23 345 (some 289))).slot_index =
      (if pageExample0.read_page_type = indexLeafTag
        then some ((KeyEntry.mk 23 345 (some 289)).slot_index.getD 0 % 65536)
        else none)) := by
  have h0 : Reached pageExample0 := Reached.base indexNodeTag 123 0 (Or.inl rfl)
  have happ : append_key pageExample0 (KeyEntry.mk 23 345 (some 289)) =
      some pageC9 := rfl
  exact ⟨h0, happ, claim_C9_theorem pageExample0 pageC9
    (KeyEntry.mk 23 345 (some 289)) h0 happ⟩

/-- C10: a successful append_key leaves the 25 header bytes and every
previously written record untouched; only the slot header, the grown
slot directory region and the 18 bytes of the new record change. -/
theorem claim_C10_theorem (p q : Page) (e : KeyEntry) (hp : Reached p)
    (happ : append_key p e = some q) :
    (∀ i, i < HEADER_SIZE → q.data i = p.data i) ∧
    (∀ o, o ∈ get_occupied_slots p → ∀ j, j < 18 →
      q.data (o + j) = p.data (o + j)) ∧
    (∀ i, slots_end q ≤ i → i < read_next_empty_offset p - 18 →
      q.data i = p.data i) ∧
    (∀ i, read_next_empty_offset p ≤ i → q.data i = p.data i) := by
  obtain ⟨hbytes, htag, hfrag, hneq, hocc47, hrecs, hsorted⟩ := reached_inv p hp
  obtain ⟨hne18, hsp, hocc46, hne19⟩ := reached_append_bounds p q e hp happ
  obtain ⟨c1, c2, c3, _, _, _, _, _, c9, c10, c11, _⟩ :=
    append_key_spec p q e hbytes hne18 hsp (fun o ho => (hrecs o ho).1) happ
  refine ⟨c9, ?_, ?_, c11⟩
  · intro o ho j hj
    refine c11 (o + j) ?_
    have := (hrecs o ho).1
    omega
  · intro i h1 h2
    refine c10 i ?_ h2
    have hseq : slots_end q =
        31 + (read_n_slots q + read_fragmented_slots q) * 2 := rfl
    have hselit : slots_end p =
        31 + (read_n_slots p + read_fragmented_slots p) * 2 := rfl
    omega

/-- C10 witness: the frame conditions at the concrete append producing
pageDup1. -/
theorem claim_C10_witness :
    Reached pageExample0 ∧
    append_key pageExample0 (KeyEntry.mk 1 14 none) = some pageDup1 ∧
    ((∀ i, i < HEADER_SIZE → pageDup1.data i = pageExample0.data i) ∧
    (∀ o, o ∈ get_occupied_slots pageExample0 → ∀ j, j < 18 →
      pageDup1.data (o + j) = pageExample0.data (o + j)) ∧
    (∀ i, slots_end pageDup1 ≤ i →
      i < read_next_empty_offset pageExample0 - 18 →
      pageDup1.data i = pageExample0.data i) ∧
    (∀ i, read_next_empty_offset pageExample0 ≤ i →
      pageDup1.data i = pageExample0.data i)) := by
  have h0 : Reached pageExample0 := Reached.base indexNodeTag 123 0 (Or.inl rfl)
  have happ : append_key pageExample0 (KeyEntry.mk 1 14 none) =
      some pageDup1 := rfl
  exact ⟨h0, happ, claim_C10_theorem pageExample0 pageDup1
    (KeyEntry.mk 1 14 none) h0 happ⟩

/-- C3 evaluation at the failing input: on pageC3 the record heap meets
the directory end exactly (new offset 31 equals slots_end, and is below
slots_end plus the 2 bytes of the new directory entry, so the claim
requires PageFull), yet append_key succeeds, and the freshly written
directory entry at byte 31 is then overwritten by the record bytes: the
stored offset reads back 0 instead of 31. -/
theorem claim_C3_evaluation :
    slots_end pageC3 = 31 ∧
    read_next_empty_offset pageC3 - 18 = 31 ∧
    read_next_empty_offset pageC3 - 18 < slots_end pageC3 + 2 ∧
    (append_key pageC3 (KeyEntry.mk 1 345 none)).isSome = true ∧
    get_entry_offset
      ((append_key pageC3 (KeyEntry.mk 1 345 none)).getD (zeroPage 0)) 0 =
      0 := by
  decide

/-! Lemma layer: association lists and tracker lists. -/

theorem mem_lremove (t : List Nat) (id x : Nat) :
    x ∈ lremove t id ↔ x ∈ t ∧ x ≠ id := by
  induction t with
  | nil => simp [lremove]
  | cons y rest ih =>
    rw [lremove]
    by_cases hy : y = id
    · rw [if_pos hy]
      subst hy
      rw [ih]
      constructor
      · intro h
        exact ⟨List.mem_cons_of_mem _ h.1, h.2⟩
      · intro h
        rcases List.mem_cons.mp h.1 with h1 | h1
        · exact absurd h1 h.2
        · exact ⟨h1, h.2⟩
    · rw [if_neg hy]
      constructor
      · intro h
        rcases List.mem_cons.mp h with h1 | h1
        · subst h1
          exact ⟨List.mem_cons_self _ _, hy⟩
        · have := ih.mp h1
          exact ⟨List.mem_cons_of_mem _ this.1, this.2⟩
      · intro h
        rcases List.mem_cons.mp h.1 with h1 | h1
        · subst h1
          exact List.mem_cons_self _ _
        · exact List.mem_cons_of_mem _ (ih.mpr ⟨h1, h.2⟩)

theorem alookup_aerase {α : Type} (l : List (Nat × α)) (k j : Nat) :
    alookup (aerase l k) j = if j = k then none else alookup l j := by
  induction l with
  | nil =>
    rw [aerase, alookup]
    split <;> rfl
  | cons kv rest ih =>
    rw [aerase]
    by_cases hk : kv.1 = k
    · rw [if_pos hk, ih]
      by_cases hjk : j = k
      · rw [if_pos hjk, if_pos hjk]
      · rw [if_neg hjk, if_neg hjk, alookup]
        rw [if_neg (by omega)]
    · rw [if_neg hk, alookup]
      by_cases hj : kv.1 = j
      · rw [if_pos hj, alookup, if_pos hj]
        rw [if_neg (by omega)]
      · rw [if_neg hj, ih, alookup, if_neg hj]

theorem alookup_ainsert {α : Type} (l : List (Nat × α)) (k j : Nat) (v : α) :
    alookup (ainsert l k v) j = if j = k then some v else alookup l j := by
  rw [ainsert, alookup]
  by_cases hj : k = j
  · rw [if_pos hj, if_pos (by omega)]
  · rw [if_neg hj, alookup_aerase, if_neg (by omega), if_neg (by omega)]

theorem length_aerase_le {α : Type} (l : List (Nat × α)) (k : Nat) :
    (aerase l k).length ≤ l.length := by
  induction l with
  | nil => simp [aerase]
  | cons kv rest ih =>
    rw [aerase]
    split
    · simp only [List.length_cons]
      omega
    · simp only [List.length_cons]
      omega

theorem length_aerase_lt {α : Type} (l : List (Nat × α)) (k : Nat) (v : α)
    (h : alookup l k = some v) : (aerase l k).length < l.length := by
  induction l with
  | nil => simp [alookup] at h
  | cons kv rest ih =>
    rw [aerase]
    rw [alookup] at h
    by_cases hk : kv.1 = k
    · rw [if_pos hk]
      have := length_aerase_le rest k
      simp only [List.length_cons]
      omega
    · rw [if_neg hk]
      rw [if_neg hk] at h
      have := ih h
      simp only [List.length_cons]
      omega

theorem length_ainsert_le {α : Type} (l : List (Nat × α)) (k : Nat) (v : α) :
    (ainsert l k v).length ≤ l.length + 1 := by
  rw [ainsert]
  simp only [List.length_cons]
  have := length_aerase_le l k
  omega

theorem length_ainsert_of_lookup {α : Type} (l : List (Nat × α)) (k : Nat)
    (v w : α) (h : alookup l k = some v) :
    (ainsert l k w).length ≤ l.length := by
  rw [ainsert]
  simp only [List.length_cons]
  have := length_aerase_lt l k v h
  omega

theorem mem_trackerInsert_self (t : List Nat) (id : Nat) :
    id ∈ trackerInsert t id := by
  rw [trackerInsert]
  simp

theorem mem_trackerInsert_of_mem (t : List Nat) (id x : Nat) (h : x ∈ t) :
    x ∈ trackerInsert t id := by
  rw [trackerInsert]
  by_cases hx : x = id
  · simp [hx]
  · simp only [List.mem_append, List.mem_singleton]
    exact Or.inl ((mem_lremove t id x).mpr ⟨h, hx⟩)

theorem mem_trackerTouch_of_mem (t : List Nat) (id x : Nat) (h : x ∈ t) :
    x ∈ trackerTouch t id := by
  rw [trackerTouch]
  split
  · by_cases hx : x = id
    · simp [hx]
    · simp only [List.mem_append, List.mem_singleton]
      exact Or.inl ((mem_lremove t id x).mpr ⟨h, hx⟩)
  · exact h

/-! Lemma layer: eviction. -/

theorem scanVictim_spec (pages : List (Nat × Frame)) :
    ∀ tr v, scanVictim pages tr = some v →
      ∃ pre post, tr = pre ++ v :: post ∧
        (∀ id ∈ pre, ∃ g, alookup pages id = some g ∧ g.refs ≠ 0) ∧
        ∃ f, alookup pages v = some f ∧ f.refs = 0 := by
  intro tr
  induction tr with
  | nil =>
    intro v h
    simp [scanVictim] at h
  | cons id rest ih =>
    intro v h
    cases hlk : alookup pages id with
    | none => simp [scanVictim, hlk] at h
    | some f =>
      by_cases hr : f.refs = 0
      · have hv : v = id := by
          simp [scanVictim, hlk, hr] at h
          omega
        subst hv
        exact ⟨[], rest, rfl, by simp, f, hlk, hr⟩
      · have h2 : scanVictim pages rest = some v := by
          simpa [scanVictim, hlk, hr] using h
        obtain ⟨pre, post, h1, hpre, hf⟩ := ih v h2
        refine ⟨id :: pre, post, by rw [h1, List.cons_append], ?_, hf⟩
        intro x hx
        rcases List.mem_cons.mp hx with hx | hx
        · subst hx
          exact ⟨f, hlk, hr⟩
        · exact hpre x hx

/-- Full behaviour of a successful eviction: the tracker splits at the
victim with every earlier frame pinned, the victim frame is unpinned,
its bytes are written at its mapped file offset unconditionally, and
the victim leaves both the cache and the tracker, which are otherwise
updated by erasure only. -/
theorem evict_next_page_spec (s s2 : PageManager) (v : Nat)
    (hev : evict_next_page s = some (s2, v)) :
    (∃ pre post, s.tracker = pre ++ v :: post ∧
      (∀ id ∈ pre, ∃ g, alookup s.pages id = some g ∧ g.refs ≠ 0)) ∧
    (∃ f, alookup s.pages v = some f ∧ f.refs = 0 ∧
      (∃ entry file, alookup s.disk_manager.page_map v = some entry ∧
        fsLookup s.fs entry.file_path = some file ∧
        s2.fs = fsWrite s.fs entry.file_path
          (writeAtFile file entry.offset f.data))) ∧
    s2.pages = aerase s.pages v ∧
    s2.tracker = lremove s.tracker v ∧
    s2.max_num_pages = s.max_num_pages ∧
    s2.disk_manager = s.disk_manager ∧
    s2.empty_pages = s.empty_pages := by
  cases hscan : scanVictim s.pages s.tracker with
  | none => simp [evict_next_page, hscan] at hev
  | some v0 =>
    obtain ⟨pre, post, htr, hpre, f0, hlk0, hr0⟩ :=
      scanVictim_spec s.pages s.tracker v0 hscan
    cases hlk : alookup s.pages v0 with
    | none => simp [evict_next_page, hscan, hlk] at hev
    | some f =>
      cases hsv : s.disk_manager.save_page s.fs v0 f.data with
      | error err => simp [evict_next_page, hscan, hlk, hsv] at hev
      | ok fs2 =>
        simp only [evict_next_page, hscan, hlk, hsv] at hev
        rw [Option.some.injEq, Prod.mk.injEq] at hev
        obtain ⟨hs2eq, hveq⟩ := hev
        subst hveq
        have hff : f = f0 := by
          rw [hlk] at hlk0
          injection hlk0
        subst hff
        refine ⟨⟨pre, post, htr, hpre⟩, ⟨f, hlk, hr0, ?_⟩, ?_, ?_, ?_, ?_, ?_⟩
        · cases hpm : alookup s.disk_manager.page_map v0 with
          | none => simp [DiskManager.save_page, hpm] at hsv
          | some entry =>
            cases hfl : fsLookup s.fs entry.file_path with
            | none => simp [DiskManager.save_page, hpm, hfl] at hsv
            | some file =>
              have hfs2 : fs2 = fsWrite s.fs entry.file_path
                  (writeAtFile file entry.offset f.data) := by
                have h2 := hsv
                simp only [DiskManager.save_page, hpm, hfl,
                  Except.ok.injEq] at h2
                exact h2.symm
              refine ⟨entry, file, rfl, hfl, ?_⟩
              rw [← hs2eq, hfs2]
        · rw [← hs2eq]
        · rw [← hs2eq]
          rw [trackerRemove]
        · rw [← hs2eq]
        · rw [← hs2eq]
        · rw [← hs2eq]

/-! Lemma layer: buffer-pool conservation. -/

theorem enumFrom_filter_lt_length {a : Type} (len : Nat) :
    forall (xs : List a) (k : Nat),
      ((List.enumFrom k xs).filter (fun iv => decide (iv.1 < len))).length <=
        len - k := by
  intro xs
  induction xs with
  | nil => intro k; simp
  | cons x rest ih =>
    intro k
    have hc : List.enumFrom k (x :: rest) =
        (k, x) :: List.enumFrom (k + 1) rest := rfl
    rw [hc, List.filter_cons]
    by_cases hk : k < len
    · rw [if_pos (by simpa using hk)]
      have hr := ih (k + 1)
      simp only [List.length_cons]
      omega
    · rw [if_neg (by simpa using hk)]
      have hr := ih (k + 1)
      omega

theorem addStep_max (len : Nat) (acc : PageManager) (iv : Nat × Nat) :
    (addStep len acc iv).max_num_pages = acc.max_num_pages := by
  rw [addStep]
  split <;> rfl

theorem addStep_len (len : Nat) (acc : PageManager) (iv : Nat × Nat) :
    (addStep len acc iv).pages.length <=
      acc.pages.length + (if iv.1 < len then 1 else 0) := by
  rw [addStep]
  by_cases h : iv.1 < len
  · rw [if_pos h, if_pos h]
    exact length_ainsert_le acc.pages iv.2
      (Frame.mk (List.replicate PAGE_SIZE_BYTES 0) false 0)
  · rw [if_neg h, if_neg h]
    simp

theorem addStep_inv (len : Nat) (acc : PageManager) (iv : Nat × Nat)
    (hinv : forall id f, alookup acc.pages id = some f -> id ∈ acc.tracker) :
    forall id f, alookup (addStep len acc iv).pages id = some f ->
      id ∈ (addStep len acc iv).tracker := by
  intro id f hid
  rw [addStep] at hid ⊢
  by_cases h : iv.1 < len
  · rw [if_pos h] at hid ⊢
    by_cases hie : id = iv.2
    · show id ∈ trackerInsert acc.tracker iv.2
      rw [hie]
      exact mem_trackerInsert_self acc.tracker iv.2
    · have h2 : alookup acc.pages id = some f := by
        have h3 : alookup (ainsert acc.pages iv.2
            (Frame.mk (List.replicate PAGE_SIZE_BYTES 0) false 0)) id =
            some f := hid
        rw [alookup_ainsert, if_neg hie] at h3
        exact h3
      show id ∈ trackerInsert acc.tracker iv.2
      exact mem_trackerInsert_of_mem acc.tracker iv.2 id (hinv id f h2)
  · rw [if_neg h] at hid ⊢
    exact hinv id f hid

theorem foldl_addStep_max (len : Nat) (l : List (Nat × Nat)) :
    forall acc : PageManager,
      (l.foldl (addStep len) acc).max_num_pages = acc.max_num_pages := by
  induction l with
  | nil => intro acc; rfl
  | cons iv rest ih =>
    intro acc
    rw [List.foldl_cons, ih, addStep_max]

theorem foldl_addStep_len (len : Nat) (l : List (Nat × Nat)) :
    forall acc : PageManager,
      (l.foldl (addStep len) acc).pages.length <=
        acc.pages.length +
          (l.filter (fun iv => decide (iv.1 < len))).length := by
  induction l with
  | nil => intro acc; simp
  | cons iv rest ih =>
    intro acc
    rw [List.foldl_cons, List.filter_cons]
    have h1 := ih (addStep len acc iv)
    have h2 := addStep_len len acc iv
    by_cases h : iv.1 < len
    · rw [if_pos (by simpa using h)]
      rw [if_pos h] at h2
      simp only [List.length_cons]
      omega
    · rw [if_neg (by simpa using h)]
      rw [if_neg h] at h2
      omega

theorem foldl_addStep_inv (len : Nat) (l : List (Nat × Nat)) :
    forall acc : PageManager,
      (forall id f, alookup acc.pages id = some f -> id ∈ acc.tracker) ->
      forall id f, alookup (l.foldl (addStep len) acc).pages id = some f ->
        id ∈ (l.foldl (addStep len) acc).tracker := by
  induction l with
  | nil => intro acc h; exact h
  | cons iv rest ih =>
    intro acc h
    rw [List.foldl_cons]
    exact ih (addStep len acc iv) (addStep_inv len acc iv h)

theorem add_empty_pages_inv (s : PageManager) (file : String) (n : Nat)
    (hlen : s.pages.length <= s.max_num_pages)
    (hinv : forall id f, alookup s.pages id = some f -> id ∈ s.tracker) :
    (add_empty_pages s file n).max_num_pages = s.max_num_pages ∧
    (add_empty_pages s file n).pages.length <= s.max_num_pages ∧
    (forall id f, alookup (add_empty_pages s file n).pages id = some f ->
      id ∈ (add_empty_pages s file n).tracker) := by
  have he : add_empty_pages s file n =
      ((s.disk_manager.allocate_pages s.fs n file).2.2.enum).foldl
        (addStep (min (s.max_num_pages - s.pages.length) n))
        { s with
          disk_manager := (s.disk_manager.allocate_pages s.fs n file).1,
          fs := (s.disk_manager.allocate_pages s.fs n file).2.1 } := rfl
  rw [he]
  refine ⟨?_, ?_, ?_⟩
  · rw [foldl_addStep_max]
  · have h1 := foldl_addStep_len (min (s.max_num_pages - s.pages.length) n)
      (s.disk_manager.allocate_pages s.fs n file).2.2.enum
      { s with
        disk_manager := (s.disk_manager.allocate_pages s.fs n file).1,
        fs := (s.disk_manager.allocate_pages s.fs n file).2.1 }
    have h3 : (s.disk_manager.allocate_pages s.fs n file).2.2.enum =
        List.enumFrom 0 (s.disk_manager.allocate_pages s.fs n file).2.2 := rfl
    have h2 := enumFrom_filter_lt_length
      (min (s.max_num_pages - s.pages.length) n)
      (s.disk_manager.allocate_pages s.fs n file).2.2 0
    have h4 : ({ s with
        disk_manager := (s.disk_manager.allocate_pages s.fs n file).1,
        fs := (s.disk_manager.allocate_pages s.fs n file).2.1 } :
        PageManager).pages.length = s.pages.length := rfl
    rw [h3, h4] at h1
    rw [h3]
    omega
  · exact foldl_addStep_inv (min (s.max_num_pages - s.pages.length) n)
      (s.disk_manager.allocate_pages s.fs n file).2.2.enum
      { s with
        disk_manager := (s.disk_manager.allocate_pages s.fs n file).1,
        fs := (s.disk_manager.allocate_pages s.fs n file).2.1 } hinv

theorem evict_inv (s s2 : PageManager) (v : Nat)
    (hev : evict_next_page s = some (s2, v))
    (hinv : forall id f, alookup s.pages id = some f -> id ∈ s.tracker) :
    s2.max_num_pages = s.max_num_pages ∧
    s2.pages.length + 1 <= s.pages.length ∧
    (forall id f, alookup s2.pages id = some f -> id ∈ s2.tracker) := by
  obtain ⟨hsplit, ⟨f, hlk, hr0, hsave⟩, hp, ht, hmax, hdm, hemp⟩ :=
    evict_next_page_spec s s2 v hev
  refine ⟨hmax, ?_, ?_⟩
  · rw [hp]
    have h1 := length_aerase_lt s.pages v f hlk
    omega
  · intro id g hid
    rw [hp, alookup_aerase] at hid
    rw [ht]
    by_cases hiv : id = v
    · rw [if_pos hiv] at hid
      exact absurd hid (by simp)
    · rw [if_neg hiv] at hid
      exact (mem_lremove s.tracker v id).mpr ⟨hinv id g hid, hiv⟩

theorem pm_load_page_inv (s : PageManager) (pid : Nat) (s2 : PageManager)
    (f2 : Frame) (h : PageManager.load_page s pid = some (s2, f2))
    (hlen : s.pages.length <= s.max_num_pages)
    (hinv : forall id f, alookup s.pages id = some f -> id ∈ s.tracker) :
    s2.max_num_pages = s.max_num_pages ∧
    s2.pages.length <= s.max_num_pages ∧
    (forall id f, alookup s2.pages id = some f -> id ∈ s2.tracker) := by
  by_cases hfull : s.pages.length = s.max_num_pages
  · cases hev : evict_next_page s with
    | none => simp [PageManager.load_page, hfull, hev] at h
    | some sv =>
      obtain ⟨s1, v⟩ := sv
      obtain ⟨hmax1, hl1, hi1⟩ := evict_inv s s1 v hev hinv
      cases hload : s1.disk_manager.load_page s1.fs pid with
      | error e => simp [PageManager.load_page, hfull, hev, hload] at h
      | ok data =>
        have h2 : some (({ s1 with
            pages := ainsert s1.pages pid (Frame.mk data false 1),
            tracker := trackerInsert s1.tracker pid } : PageManager),
            Frame.mk data false 1) = some (s2, f2) := by
          rw [← h]
          simp [PageManager.load_page, hfull, hev, hload]
        rw [Option.some.injEq, Prod.mk.injEq] at h2
        obtain ⟨hs2, hf2⟩ := h2
        refine ⟨?_, ?_, ?_⟩
        · rw [← hs2]
          exact hmax1
        · rw [← hs2]
          show (ainsert s1.pages pid (Frame.mk data false 1)).length <=
            s.max_num_pages
          have h3 := length_ainsert_le s1.pages pid (Frame.mk data false 1)
          omega
        · rw [← hs2]
          intro id g hid
          have hid2 : alookup (ainsert s1.pages pid (Frame.mk data false 1))
              id = some g := hid
          show id ∈ trackerInsert s1.tracker pid
          by_cases hip : id = pid
          · rw [hip]
            exact mem_trackerInsert_self s1.tracker pid
          · rw [alookup_ainsert, if_neg hip] at hid2
            exact mem_trackerInsert_of_mem s1.tracker pid id (hi1 id g hid2)
  · cases hload : s.disk_manager.load_page s.fs pid with
    | error e => simp [PageManager.load_page, hfull, hload] at h
    | ok data =>
      have h2 : some (({ s with
          pages := ainsert s.pages pid (Frame.mk data false 1),
          tracker := trackerInsert s.tracker pid } : PageManager),
          Frame.mk data false 1) = some (s2, f2) := by
        rw [← h]
        simp [PageManager.load_page, hfull, hload]
      rw [Option.some.injEq, Prod.mk.injEq] at h2
      obtain ⟨hs2, hf2⟩ := h2
      refine ⟨?_, ?_, ?_⟩
      · rw [← hs2]
      · rw [← hs2]
        show (ainsert s.pages pid (Frame.mk data false 1)).length <=
          s.max_num_pages
        have h3 := length_ainsert_le s.pages pid (Frame.mk data false 1)
        omega
      · rw [← hs2]
        intro id g hid
        have hid2 : alookup (ainsert s.pages pid (Frame.mk data false 1))
            id = some g := hid
        show id ∈ trackerInsert s.tracker pid
        by_cases hip : id = pid
        · rw [hip]
          exact mem_trackerInsert_self s.tracker pid
        · rw [alookup_ainsert, if_neg hip] at hid2
          exact mem_trackerInsert_of_mem s.tracker pid id (hinv id g hid2)

theorem find_page_inv (s : PageManager) (pid : Nat) (s2 : PageManager)
    (f2 : Frame) (h : find_page s pid = some (s2, f2))
    (hlen : s.pages.length <= s.max_num_pages)
    (hinv : forall id f, alookup s.pages id = some f -> id ∈ s.tracker) :
    s2.max_num_pages = s.max_num_pages ∧
    s2.pages.length <= s.max_num_pages ∧
    (forall id f, alookup s2.pages id = some f -> id ∈ s2.tracker) := by
  cases hlk : alookup s.pages pid with
  | none =>
    have h2 : PageManager.load_page s pid = some (s2, f2) := by
      rw [← h]
      simp [find_page, hlk]
    exact pm_load_page_inv s pid s2 f2 h2 hlen hinv
  | some f =>
    have h2 : some (({ s with
        pages := ainsert s.pages pid { f with refs := f.refs + 1 },
        tracker := trackerTouch s.tracker pid } : PageManager),
        { f with refs := f.refs + 1 }) = some (s2, f2) := by
      rw [← h]
      simp [find_page, hlk]
    rw [Option.some.injEq, Prod.mk.injEq] at h2
    obtain ⟨hs2, hf2⟩ := h2
    have hmem : pid ∈ s.tracker := hinv pid f hlk
    refine ⟨?_, ?_, ?_⟩
    · rw [← hs2]
    · rw [← hs2]
      show (ainsert s.pages pid { f with refs := f.refs + 1 }).length <=
        s.max_num_pages
      have h3 := length_ainsert_of_lookup s.pages pid f
        { f with refs := f.refs + 1 } hlk
      omega
    · rw [← hs2]
      intro id g hid
      have hid2 : alookup (ainsert s.pages pid
          { f with refs := f.refs + 1 }) id = some g := hid
      show id ∈ trackerTouch s.tracker pid
      by_cases hip : id = pid
      · rw [hip, trackerTouch, if_pos hmem]
        simp
      · rw [alookup_ainsert, if_neg hip] at hid2
        exact mem_trackerTouch_of_mem s.tracker pid id (hinv id g hid2)

theorem next_free_page_inv (s : PageManager) (s2 : PageManager) (f2 : Frame)
    (h : next_free_page s = some (s2, f2))
    (hlen : s.pages.length <= s.max_num_pages)
    (hinv : forall id f, alookup s.pages id = some f -> id ∈ s.tracker) :
    s2.max_num_pages = s.max_num_pages ∧
    s2.pages.length <= s.max_num_pages ∧
    (forall id f, alookup s2.pages id = some f -> id ∈ s2.tracker) := by
  cases hlast : s.empty_pages.getLast? with
  | none => simp [next_free_page, hlast] at h
  | some pid =>
    have h2 : find_page
        { s with empty_pages := s.empty_pages.dropLast } pid =
        some (s2, f2) := by
      rw [← h]
      simp [next_free_page, hlast]
    exact find_page_inv { s with empty_pages := s.empty_pages.dropLast }
      pid s2 f2 h2 hlen hinv

theorem dropHandle_inv (s : PageManager) (pid : Nat)
    (hlen : s.pages.length <= s.max_num_pages)
    (hinv : forall id f, alookup s.pages id = some f -> id ∈ s.tracker) :
    (dropHandle s pid).max_num_pages = s.max_num_pages ∧
    (dropHandle s pid).pages.length <= s.max_num_pages ∧
    (forall id f, alookup (dropHandle s pid).pages id = some f ->
      id ∈ (dropHandle s pid).tracker) := by
  cases hlk : alookup s.pages pid with
  | none =>
    have he : dropHandle s pid = s := by
      rw [dropHandle, hlk]
    rw [he]
    exact ⟨rfl, hlen, hinv⟩
  | some f =>
    by_cases hr : f.refs = 0
    · have he : dropHandle s pid = s := by
        rw [dropHandle, hlk]
        simp [hr]
      rw [he]
      exact ⟨rfl, hlen, hinv⟩
    · have he : dropHandle s pid = { s with
          pages := ainsert s.pages pid { f with refs := f.refs - 1 } } := by
        rw [dropHandle, hlk]
        simp [hr]
      rw [he]
      refine ⟨rfl, ?_, ?_⟩
      · show (ainsert s.pages pid { f with refs := f.refs - 1 }).length <=
          s.max_num_pages
        have h3 := length_ainsert_of_lookup s.pages pid f
          { f with refs := f.refs - 1 } hlk
        omega
      · intro id g hid
        have hid2 : alookup (ainsert s.pages pid
            { f with refs := f.refs - 1 }) id = some g := hid
        show id ∈ s.tracker
        by_cases hip : id = pid
        · rw [hip]
          exact hinv pid f hlk
        · rw [alookup_ainsert, if_neg hip] at hid2
          exact hinv id g hid2

theorem execOp_inv (s s2 : PageManager) (op : PoolOp)
    (h : execOp s op = some s2)
    (hlen : s.pages.length <= s.max_num_pages)
    (hinv : forall id f, alookup s.pages id = some f -> id ∈ s.tracker) :
    s2.max_num_pages = s.max_num_pages ∧
    s2.pages.length <= s.max_num_pages ∧
    (forall id f, alookup s2.pages id = some f -> id ∈ s2.tracker) := by
  cases op with
  | addEmpty file n =>
    have h2 : add_empty_pages s file n = s2 := by
      have h3 := h
      simp only [execOp, Option.some.injEq] at h3
      exact h3
    rw [← h2]
    exact add_empty_pages_inv s file n hlen hinv
  | nextFree =>
    cases hnf : next_free_page s with
    | none => simp [execOp, hnf] at h
    | some sv =>
      have h2 : sv.1 = s2 := by
        have h3 := h
        simp only [execOp, hnf, Option.map_some', Option.some.injEq] at h3
        exact h3
      rw [← h2]
      exact next_free_page_inv s sv.1 sv.2 (by rw [hnf]) hlen hinv
  | find id =>
    cases hfp : find_page s id with
    | none => simp [execOp, hfp] at h
    | some sv =>
      have h2 : sv.1 = s2 := by
        have h3 := h
        simp only [execOp, hfp, Option.map_some', Option.some.injEq] at h3
        exact h3
      rw [← h2]
      exact find_page_inv s id sv.1 sv.2 (by rw [hfp]) hlen hinv
  | drophdl id =>
    have h2 : dropHandle s id = s2 := by
      have h3 := h
      simp only [execOp, Option.some.injEq] at h3
      exact h3
    rw [← h2]
    exact dropHandle_inv s id hlen hinv

theorem runOps_inv (ops : List PoolOp) :
    forall s s2, runOps s ops = some s2 ->
      s.pages.length <= s.max_num_pages ->
      (forall id f, alookup s.pages id = some f -> id ∈ s.tracker) ->
      s2.max_num_pages = s.max_num_pages ∧
      s2.pages.length <= s.max_num_pages ∧
      (forall id f, alookup s2.pages id = some f -> id ∈ s2.tracker) := by
  induction ops with
  | nil =>
    intro s s2 h hlen hinv
    have h2 : s = s2 := by simpa [runOps] using h
    rw [← h2]
    exact ⟨rfl, hlen, hinv⟩
  | cons op rest ih =>
    intro s s2 h hlen hinv
    cases hop : execOp s op with
    | none => simp [runOps, hop] at h
    | some s1 =>
      have h2 : runOps s1 rest = some s2 := by
        have h3 := h
        simp only [runOps, hop] at h3
        exact h3
      obtain ⟨hm1, hl1, hi1⟩ := execOp_inv s s1 op hop hlen hinv
      obtain ⟨hm2, hl2, hi2⟩ := ih s1 s2 h2 (by omega) hi1
      exact ⟨by omega, by omega, hi2⟩

/-- C4: a successful eviction cycle scans the tracker from oldest to
newest, skipping exactly the frames whose external reference count is
nonzero, and selects the first unpinned frame; a page some client still
holds a handle to is never the victim; the victim is removed from both
the cache and the tracker and its bytes are saved through the disk
manager with no test of the dirty flag. -/
theorem claim_C4_theorem (s s2 : PageManager) (v : Nat)
    (hev : evict_next_page s = some (s2, v)) :
    (∃ pre post, s.tracker = pre ++ v :: post ∧
      (forall id, id ∈ pre ->
        ∃ g, alookup s.pages id = some g ∧ g.refs ≠ 0)) ∧
    (∃ f, alookup s.pages v = some f ∧ f.refs = 0 ∧
      (∃ entry file, alookup s.disk_manager.page_map v = some entry ∧
        fsLookup s.fs entry.file_path = some file ∧
        s2.fs = fsWrite s.fs entry.file_path
          (writeAtFile file entry.offset f.data))) ∧
    (forall id g, alookup s.pages id = some g -> g.refs ≠ 0 -> v ≠ id) ∧
    alookup s2.pages v = none ∧
    v ∉ s2.tracker ∧
    s2.pages = aerase s.pages v ∧
    s2.tracker = lremove s.tracker v := by
  obtain ⟨⟨pre, post, htr, hpre⟩, ⟨f, hlk, hr0, hsave⟩, hp, ht, hmax, hdm,
    hemp⟩ := evict_next_page_spec s s2 v hev
  refine ⟨⟨pre, post, htr, fun id hid => hpre id hid⟩,
    ⟨f, hlk, hr0, hsave⟩, ?_, ?_, ?_, hp, ht⟩
  · intro id g hid hg hvid
    rw [← hvid, hlk] at hid
    have hfg : f = g := by injection hid
    rw [← hfg] at hg
    exact hg hr0
  · rw [hp, alookup_aerase, if_pos rfl]
  · rw [ht]
    intro hmem
    exact ((mem_lremove s.tracker v v).mp hmem).2 rfl

theorem claim_C4_witness :
    evict_next_page pmC4 = some (pmC4after, 7) ∧
    alookup pmC4after.pages 7 = none ∧ 7 ∉ pmC4after.tracker :=
  ⟨rfl, (claim_C4_theorem pmC4 pmC4after 7 rfl).2.2.2.1,
    (claim_C4_theorem pmC4 pmC4after 7 rfl).2.2.2.2.1⟩

/-- C5: across every sequence of pool operations from a fresh pool, the
cache never holds more than max_num_pages frames, every cached id is
registered in the usage tracker, and immediately after an eviction of id
the id is in neither the cache nor the tracker. -/
theorem claim_C5_theorem (max : Nat) (dir : String) (fs0 : FileSystem)
    (ops : List PoolOp) (s : PageManager)
    (hrun : runOps (PageManager.new max dir fs0) ops = some s) :
    s.pages.length <= max ∧
    (forall id f, alookup s.pages id = some f -> id ∈ s.tracker) ∧
    (forall s2 v, evict_next_page s = some (s2, v) ->
      alookup s2.pages v = none ∧ v ∉ s2.tracker) := by
  have h := runOps_inv ops (PageManager.new max dir fs0) s hrun
    (by simp [PageManager.new])
    (by
      intro id f hx
      simp [PageManager.new, alookup] at hx)
  refine ⟨h.2.1, h.2.2, ?_⟩
  intro s2 v hev
  obtain ⟨hsplit, hex, hp, ht, hmax, hdm, hemp⟩ :=
    evict_next_page_spec s s2 v hev
  constructor
  · rw [hp, alookup_aerase, if_pos rfl]
  · rw [ht]
    intro hmem
    exact ((mem_lremove s.tracker v v).mp hmem).2 rfl

theorem claim_C5_witness :
    runOps (PageManager.new 2 "d" []) opsC5 = some pmC5 ∧
    pmC5.pages.length <= 2 ∧
    (forall id f, alookup pmC5.pages id = some f -> id ∈ pmC5.tracker) :=
  ⟨rfl, (claim_C5_theorem 2 "d" [] opsC5 pmC5 rfl).1,
    (claim_C5_theorem 2 "d" [] opsC5 pmC5 rfl).2.1⟩

/-- C6: after allocate_pages(65, f) the page at index 64 is assigned id
64, but its mapped byte offset is 0 rather than 64 times the page size:
the source computes the offset in u16 arithmetic, which wraps at index
64 (and overflow-panics in a debug build, as the repository's own
100-page test would). -/
theorem claim_C6_evaluation :
    dmAlloc65.2.2.getD 64 0 = 64 ∧
    (alookup dmAlloc65.1.page_map 64).map DiskEntry.offset = some 0 ∧
    (0 : Nat) ≠ 64 * 1024 := by
  refine ⟨by rfl, by rfl, by decide⟩

/-- C7: after a second allocation truncates the backing file to a single
byte, page 0 remains mapped to bytes 0..1023 of that file, yet
load_page returns Ok with a zero-filled buffer instead of an IoError:
the source drops the Result of read_exact. -/
theorem claim_C7_evaluation :
    (fsLookup dmC7B.2.1 "d/f").map List.length = some 1 ∧
    DiskManager.load_page dmC7B.1 dmC7B.2.1 0 =
      Except.ok (List.replicate PAGE_SIZE_BYTES 0) := by
  refine ⟨by rfl, by rfl⟩

end Yardd
